import Mathlib

/-!
Shallow embedding of the transit fare system (`src/main.py`): network model,
Dijkstra shortest-path routing, path analysis (mode inference), and the
transfer-window fare engine.  Python dicts are embedded as association lists,
ints as `Int`, floats (fare amounts) as `ℚ`, and code that can raise an
exception returns `Option`/`Except`.
-/

namespace Transit

/-- `Edge` dataclass: a directed connection in the network graph. -/
structure Edge where
  to_id : String
  minutes : Int
  line : String
  mode : String
deriving DecidableEq

/-- `FareSession` dataclass: what the rider has paid for in the current
transfer window. -/
structure FareSession where
  start_minute : Int
  paid_zones : Int
deriving DecidableEq

/-! ### Python dict operations, embedded on association lists -/

/-- Python `d.get(k)` / `d[k]`-when-present: lookup by key.  Python dict keys
are unique; we keep the first binding. -/
def dictFind {α β : Type} [DecidableEq α] (d : List (α × β)) (k : α) : Option β :=
  (d.find? (fun p => decide (p.1 = k))).map Prod.snd

/-- The key list of an embedded dict. -/
def dkeys {α β : Type} (d : List (α × β)) : List α :=
  d.map Prod.fst

/-- Python `max(d)` over a dict: maximum key; `none` on an empty dict
(where Python raises `ValueError`). -/
def dictMaxKey (d : List (Int × ℚ)) : Option Int :=
  match d.map Prod.fst with
  | [] => none
  | k :: ks => some (ks.foldl max k)

/-! ### Fare table lookup and the transfer-window fare engine -/

/-- `fare_for_zones(required_zones, zone_fares)`:
`zone_fares.get(required_zones, zone_fares[max(zone_fares)])`.
Python evaluates the default argument eagerly, so an empty table always
raises (`none`); otherwise the lookup falls back to the fare at the
maximum tabulated key. -/
def fare_for_zones (required_zones : Int) (zone_fares : List (Int × ℚ)) : Option ℚ :=
  (dictMaxKey zone_fares).bind fun m =>
    (dictFind zone_fares m).map fun dflt =>
      (dictFind zone_fares required_zones).getD dflt

/-- `compute_fare_with_transfer_window(session, trip_time_minute,
required_zones, zone_fares, window_minutes)`: returns
`(charge_amount, updated_session)`, `none` when Python would raise
(empty fare table). -/
def compute_fare_with_transfer_window
    (session : Option FareSession) (trip_time_minute : Int)
    (required_zones : Int) (zone_fares : List (Int × ℚ))
    (window_minutes : Int) : Option (ℚ × FareSession) :=
  (fare_for_zones required_zones zone_fares).bind fun trip_cost =>
    match session with
    | none => some (trip_cost, ⟨trip_time_minute, required_zones⟩)
    | some s =>
      if trip_time_minute - s.start_minute > window_minutes then
        some (trip_cost, ⟨trip_time_minute, required_zones⟩)
      else
        (fare_for_zones s.paid_zones zone_fares).map fun already_paid_cost =>
          if required_zones ≤ s.paid_zones then
            (0, s)
          else
            (max 0 (trip_cost - already_paid_cost), ⟨s.start_minute, required_zones⟩)

/-! ### Path analysis: per-segment edge lookup and mode inference -/

/-- `edge_info(graph, a, b)`: the first edge from `a` to `b` in `graph[a]`;
`none` when Python would raise (`a` not a key, or no such edge). -/
def edge_info (graph : List (String × List Edge)) (a b : String) : Option Edge :=
  (dictFind graph a).bind fun edges => edges.find? (fun e => decide (e.to_id = b))

/-- Python `str.upper()` on one character, for the ASCII range the mode
labels use. -/
def upperChar (c : Char) : Char :=
  if 'a' ≤ c ∧ c ≤ 'z' then Char.ofNat (c.toNat - 32) else c

/-- Python `str.upper()` for ASCII strings (mode labels). -/
def upperStr (s : String) : String := ⟨s.data.map upperChar⟩

/-- `infer_mode_for_path(graph, path)`: `"TRAIN"` for paths of fewer than two
stations; otherwise `"TRAIN"` iff any segment's mode upper-cases to
`"TRAIN"`, else `"BUS"`.  `none` when a segment lookup would raise. -/
def infer_mode_for_path (graph : List (String × List Edge)) (path : List String) :
    Option String :=
  if path.length < 2 then some "TRAIN"
  else
    ((path.zip path.tail).mapM fun ab => edge_info graph ab.1 ab.2).map fun es =>
      if es.any fun e => decide (upperStr e.mode = "TRAIN") then "TRAIN" else "BUS"

/-! ### Dijkstra routing -/

/-- Generic dict assignment `d[k] = v`: replace the binding if the key is
present, else append it (Python dicts keep insertion order). -/
def dictSet {α β : Type} [DecidableEq α] (d : List (α × β)) (k : α) (v : β) :
    List (α × β) :=
  if k ∈ dkeys d then d.map (fun p => if p.1 = k then (k, v) else p)
  else d ++ [(k, v)]

/-- Python tuple comparison on `(int, str)` heap entries: lexicographic. -/
def tupLt (a b : Int × String) : Bool :=
  decide (a.1 < b.1) || (decide (a.1 = b.1) && decide (a.2 < b.2))

/-- The element `heapq.heappop` would return: the least tuple in the
frontier (`none` on an empty frontier, where Python's `while pq:` exits). -/
def pqMin : List (Int × String) → Option (Int × String)
  | [] => none
  | x :: xs => some (xs.foldl (fun m y => if tupLt y m then y else m) x)

/-- The body of `for e in graph[cur]`: one relaxation step over the state
`(dist, prev, pq)`. -/
def relax (cur : String) (cur_dist : Int)
    (st : List (String × Int) × List (String × Option String) × List (Int × String))
    (e : Edge) :
    List (String × Int) × List (String × Option String) × List (Int × String) :=
  let nd := cur_dist + e.minutes
  match dictFind st.1 e.to_id with
  | none =>
    (dictSet st.1 e.to_id nd, dictSet st.2.1 e.to_id (some cur), (nd, e.to_id) :: st.2.2)
  | some d =>
    if nd < d then
      (dictSet st.1 e.to_id nd, dictSet st.2.1 e.to_id (some cur), (nd, e.to_id) :: st.2.2)
    else st

/-- The `while pq:` loop of `dijkstra_path`, fuelled.  `.error ()` models a
Python `KeyError` (a popped node missing from the graph) or fuel exhaustion;
neither occurs on a well-formed network with the fuel used below. -/
def dijkstraLoop (graph : List (String × List Edge)) (goal_id : String) :
    Nat → List (String × Int) → List (String × Option String) →
    List (Int × String) → List String →
    Except Unit (List (String × Int) × List (String × Option String))
  | 0, dist, prev, pq, _ =>
    match pqMin pq with
    | none => .ok (dist, prev)
    | some _ => .error ()
  | fuel + 1, dist, prev, pq, visited =>
    match pqMin pq with
    | none => .ok (dist, prev)
    | some m =>
      if m.2 ∈ visited then
        dijkstraLoop graph goal_id fuel dist prev (pq.erase m) visited
      else if m.2 = goal_id then
        .ok (dist, prev)
      else
        match dictFind graph m.2 with
        | none => .error ()
        | some edges =>
          dijkstraLoop graph goal_id fuel
            (edges.foldl (relax m.2 m.1) (dist, prev, pq.erase m)).1
            (edges.foldl (relax m.2 m.1) (dist, prev, pq.erase m)).2.1
            (edges.foldl (relax m.2 m.1) (dist, prev, pq.erase m)).2.2
            (m.2 :: visited)

/-- The `while cur is not None` reconstruction loop, fuelled (building the
reversed path directly instead of appending then reversing). -/
def reconstructPath (prev : List (String × Option String)) :
    Nat → String → List String → Except Unit (List String)
  | 0, _, _ => .error ()
  | fuel + 1, cur, acc =>
    match (dictFind prev cur).join with
    | none => .ok (cur :: acc)
    | some nxt => reconstructPath prev fuel nxt (cur :: acc)

/-- Fuel that provably suffices for the main loop on any network. -/
def dijkstraFuel (graph : List (String × List Edge)) : Nat :=
  (graph.map (fun p => 1 + p.2.length)).sum + 1

/-- Termination measure for the main loop: frontier size plus the total
settling-and-relaxation work still available at unvisited stations. -/
def loopMeasure (graph : List (String × List Edge)) (pq : List (Int × String))
    (visited : List String) : Nat :=
  pq.length +
    ((graph.filter (fun p => decide (p.1 ∉ visited))).map
      (fun p => 1 + p.2.length)).sum

/-- `dijkstra_path(graph, start_id, goal_id)`: `.ok none` is Python's `None`
(unknown endpoint or unreachable goal); `.error ()` marks a run Python would
not complete. -/
def dijkstra_path (graph : List (String × List Edge)) (start_id goal_id : String) :
    Except Unit (Option (List String × Int)) :=
  if start_id ∉ dkeys graph ∨ goal_id ∉ dkeys graph then .ok none
  else
    match dijkstraLoop graph goal_id (dijkstraFuel graph) [(start_id, 0)]
        [(start_id, none)] [(0, start_id)] [] with
    | .error _ => .error ()
    | .ok (dist, prev) =>
      match dictFind dist goal_id with
      | none => .ok none
      | some total =>
        match reconstructPath prev (total.toNat + 1) goal_id [] with
        | .error _ => .error ()
        | .ok path => .ok (some (path, total))

/-- Total minutes along a station list, one `edge_info` lookup per
consecutive segment; `none` if some consecutive pair is not directly
joined. -/
def pathCost (graph : List (String × List Edge)) : List String → Option Int
  | [] => some 0
  | [_] => some 0
  | a :: b :: rest =>
    (edge_info graph a b).bind fun e =>
      (pathCost graph (b :: rest)).map fun c => e.minutes + c

/-- A walk through the network from `s` to `t` along `p`, of total cost
`c`. -/
def WalkFromTo (graph : List (String × List Edge)) (s t : String)
    (p : List String) (c : Int) : Prop :=
  p.head? = some s ∧ p.getLast? = some t ∧ pathCost graph p = some c

/-- Well-formed network, as produced by `load_network`: unique adjacency
keys, every edge target a known station, strictly positive travel times,
and a single direct connection per ordered station pair. -/
def goodGraph (graph : List (String × List Edge)) : Prop :=
  (dkeys graph).Nodup ∧
  (∀ p ∈ graph, ∀ e ∈ p.2, e.to_id ∈ dkeys graph ∧ 0 < e.minutes) ∧
  (∀ p ∈ graph, (p.2.map Edge.to_id).Nodup)

instance : DecidablePred goodGraph := fun g => by
  unfold goodGraph
  infer_instance

/-- Loop invariant for `dijkstraLoop`, tying the mutable state to the
network `g` and start station `s`. -/
structure Inv (g : List (String × List Edge)) (s : String)
    (dist : List (String × Int)) (prev : List (String × Option String))
    (pq : List (Int × String)) (visited : List String) : Prop where
  distS : dictFind dist s = some 0
  prevS : dictFind prev s = some none
  distNonneg : ∀ v d, dictFind dist v = some d → 0 ≤ d
  pqInDist : ∀ d v, (d, v) ∈ pq → ∃ dv, dictFind dist v = some dv ∧ dv ≤ d
  pqKeys : ∀ d v, (d, v) ∈ pq → v ∈ dkeys g
  visitedKeys : ∀ v ∈ visited, v ∈ dkeys g
  visitedDist : ∀ v ∈ visited, ∃ dv, dictFind dist v = some dv
  frontier : ∀ v dv, dictFind dist v = some dv → v ∉ visited → (dv, v) ∈ pq
  visitedLePq : ∀ u ∈ visited, ∀ du, dictFind dist u = some du →
    ∀ d v, (d, v) ∈ pq → du ≤ d
  visitedRelaxed : ∀ u ∈ visited, ∀ du, dictFind dist u = some du →
    ∀ es, dictFind g u = some es → ∀ e ∈ es,
      ∃ dt, dictFind dist e.to_id = some dt ∧ dt ≤ du + e.minutes
  visitedOpt : ∀ u ∈ visited, ∀ du, dictFind dist u = some du →
    ∀ p c, WalkFromTo g s u p c → du ≤ c
  prevChain : ∀ v dv, dictFind dist v = some dv → v ≠ s →
    ∃ u e du, dictFind prev v = some (some u) ∧ u ∈ visited ∧
      edge_info g u v = some e ∧ dictFind dist u = some du ∧
      dv = du + e.minutes ∧ du < dv

/-- Invariant holding part-way through the relaxation fold of a freshly
settled station `cur` (with final distance `dcur` and edge list `es`),
after the edges in `done` have been processed. -/
structure MidInv (g : List (String × List Edge)) (s cur : String) (dcur : Int)
    (es : List Edge)
    (dist : List (String × Int)) (prev : List (String × Option String))
    (pq : List (Int × String)) (visited : List String) (done : List Edge) :
    Prop where
  curNotOld : cur ∉ visited
  curEdges : dictFind g cur = some es
  dcurEq : dictFind dist cur = some dcur
  distS : dictFind dist s = some 0
  prevS : dictFind prev s = some none
  distNonneg : ∀ v d, dictFind dist v = some d → 0 ≤ d
  pqInDist : ∀ d v, (d, v) ∈ pq → ∃ dv, dictFind dist v = some dv ∧ dv ≤ d
  pqKeys : ∀ d v, (d, v) ∈ pq → v ∈ dkeys g
  visitedKeys : ∀ v ∈ cur :: visited, v ∈ dkeys g
  visitedDist : ∀ v ∈ cur :: visited, ∃ dv, dictFind dist v = some dv
  frontier : ∀ v dv, dictFind dist v = some dv → v ∉ cur :: visited → (dv, v) ∈ pq
  visitedLePq : ∀ u ∈ cur :: visited, ∀ du, dictFind dist u = some du →
    ∀ d v, (d, v) ∈ pq → du ≤ d
  visitedLeDcur : ∀ u ∈ cur :: visited, ∀ du, dictFind dist u = some du → du ≤ dcur
  visitedOpt : ∀ u ∈ cur :: visited, ∀ du, dictFind dist u = some du →
    ∀ p c, WalkFromTo g s u p c → du ≤ c
  prevChain : ∀ v dv, dictFind dist v = some dv → v ≠ s →
    ∃ u e du, dictFind prev v = some (some u) ∧ u ∈ cur :: visited ∧
      edge_info g u v = some e ∧ dictFind dist u = some du ∧
      dv = du + e.minutes ∧ du < dv
  oldRelaxed : ∀ u ∈ visited, ∀ du, dictFind dist u = some du →
    ∀ es', dictFind g u = some es' → ∀ e ∈ es',
      ∃ dt, dictFind dist e.to_id = some dt ∧ dt ≤ du + e.minutes
  curRelaxed : ∀ e ∈ done,
    ∃ dt, dictFind dist e.to_id = some dt ∧ dt ≤ dcur + e.minutes

/-! ### Basic dict lemmas -/

theorem dictFind_mem {α β : Type} [DecidableEq α] {d : List (α × β)} {k : α} {v : β}
    (h : dictFind d k = some v) : (k, v) ∈ d := by
  unfold dictFind at h
  cases hf : d.find? (fun p => decide (p.1 = k)) with
  | none => simp [hf] at h
  | some p =>
    simp only [hf, Option.map_some] at h
    have hm := List.mem_of_find?_eq_some hf
    have hk := List.find?_some hf
    simp only [decide_eq_true_eq] at hk
    cases h
    have : p = (k, p.2) := by
      cases p; simp_all
    rw [← this]; exact hm

theorem dictFind_isSome_of_mem_keys {α β : Type} [DecidableEq α] {d : List (α × β)} {k : α}
    (h : k ∈ dkeys d) : ∃ v, dictFind d k = some v := by
  unfold dkeys at h
  obtain ⟨p, hp, hpk⟩ := List.mem_map.mp h
  unfold dictFind
  cases hf : d.find? (fun p => decide (p.1 = k)) with
  | none =>
    exfalso
    have := List.find?_eq_none.mp hf p hp
    simp [hpk] at this
  | some q => exact ⟨q.2, by simp⟩

theorem dictFind_eq_of_nodup {α β : Type} [DecidableEq α] {d : List (α × β)} {k : α} {v : β}
    (hnd : (dkeys d).Nodup) (hmem : (k, v) ∈ d) : dictFind d k = some v := by
  induction d with
  | nil => cases hmem
  | cons p rest ih =>
    unfold dkeys at hnd
    simp only [List.map_cons, List.nodup_cons] at hnd
    rcases List.mem_cons.mp hmem with h | h
    · subst h
      unfold dictFind
      simp [List.find?_cons]
    · have hk : p.1 ≠ k := by
        intro he
        exact hnd.1 (he ▸ (List.mem_map.mpr ⟨(k, v), h, rfl⟩))
      have hstep : dictFind (p :: rest) k = dictFind rest k := by
        unfold dictFind
        rw [List.find?_cons]
        simp [hk]
      rw [hstep]
      exact ih hnd.2 h

theorem foldl_max_mem : ∀ (ks : List Int) (k : Int),
    ks.foldl max k = k ∨ ks.foldl max k ∈ ks := by
  intro ks
  induction ks with
  | nil => intro k; left; rfl
  | cons a as ih =>
    intro k
    simp only [List.foldl_cons]
    rcases ih (max k a) with h | h
    · rcases max_choice k a with hm | hm
      · left; rw [h, hm]
      · right; rw [h, hm]; exact List.mem_cons_self a as
    · right; exact List.mem_cons_of_mem a h

theorem foldl_max_le_init : ∀ (ks : List Int) (k : Int), k ≤ ks.foldl max k := by
  intro ks
  induction ks with
  | nil => intro k; exact le_refl k
  | cons a as ih =>
    intro k
    simp only [List.foldl_cons]
    exact le_trans (le_max_left k a) (ih (max k a))

theorem foldl_max_le_mem : ∀ (ks : List Int) (k x : Int), x ∈ ks → x ≤ ks.foldl max k := by
  intro ks
  induction ks with
  | nil => intro k x hx; cases hx
  | cons a as ih =>
    intro k x hx
    simp only [List.foldl_cons]
    rcases List.mem_cons.mp hx with h | h
    · subst h
      exact le_trans (le_max_right k x) (foldl_max_le_init as (max k x))
    · exact ih (max k a) x h

theorem dictMaxKey_mem {d : List (Int × ℚ)} {m : Int}
    (h : dictMaxKey d = some m) : m ∈ dkeys d := by
  unfold dictMaxKey at h
  unfold dkeys
  cases hd : d.map Prod.fst with
  | nil => rw [hd] at h; cases h
  | cons k ks =>
    rw [hd] at h
    simp only [Option.some.injEq] at h
    subst h
    rcases foldl_max_mem ks k with h | h
    · rw [h]; exact List.mem_cons_self k ks
    · exact List.mem_cons_of_mem k h

theorem dictMaxKey_ge {d : List (Int × ℚ)} {m : Int}
    (h : dictMaxKey d = some m) : ∀ k ∈ dkeys d, k ≤ m := by
  unfold dictMaxKey at h
  unfold dkeys
  cases hd : d.map Prod.fst with
  | nil => rw [hd] at h; cases h
  | cons k ks =>
    rw [hd] at h
    simp only [Option.some.injEq] at h
    subst h
    intro x hx
    rcases List.mem_cons.mp hx with h | h
    · subst h; exact foldl_max_le_init ks x
    · exact foldl_max_le_mem ks k x h

theorem dictFind_eq_none {α β : Type} [DecidableEq α] {d : List (α × β)} {k : α}
    (h : k ∉ dkeys d) : dictFind d k = none := by
  unfold dictFind
  rw [List.find?_eq_none.mpr]
  · rfl
  · intro p hp
    simp only [decide_eq_true_eq]
    intro he
    exact h (List.mem_map.mpr ⟨p, hp, he⟩)

theorem fare_for_zones_total {zone_fares : List (Int × ℚ)} (hne : zone_fares ≠ [])
    (z : Int) : ∃ q, fare_for_zones z zone_fares = some q := by
  unfold fare_for_zones
  have hm : ∃ m, dictMaxKey zone_fares = some m := by
    unfold dictMaxKey
    cases hd : zone_fares.map Prod.fst with
    | nil => exact absurd (List.map_eq_nil_iff.mp hd) hne
    | cons k ks => exact ⟨ks.foldl max k, rfl⟩
  obtain ⟨m, hm⟩ := hm
  obtain ⟨dflt, hdflt⟩ := dictFind_isSome_of_mem_keys (dictMaxKey_mem hm)
  refine ⟨(dictFind zone_fares z).getD dflt, ?_⟩
  rw [hm]
  simp [hdflt]

/-! ### Fare-engine claims -/

/-- Claim C1 (counterexample): with fare table `{1: 2.50, 2: 3.75, 3: 4.90}`,
window 60, the first trip (no session) at minute 540 with `required_zones = 1`
is charged the zone-1 table fare 2.50, not the bus flat fare 2.00 — the fare
engine never consults the flat fare. -/
theorem scenario1_not_charged_flat_fare :
    compute_fare_with_transfer_window none 540 1
        [(1, (5 : ℚ)/2), (2, 15/4), (3, 49/10)] 60 =
      some (5/2, ⟨540, 1⟩) ∧ ((5 : ℚ)/2) ≠ 2 := by
  constructor
  · simp [compute_fare_with_transfer_window, fare_for_zones, dictMaxKey, dictFind,
      List.find?]
  · norm_num

/-- Claim C1 (amended): with fare table `{1: 2.50, 2: 3.75, 3: 4.90}` and
window 60, a first trip (no active session) at minute 540 with
`required_zones = 1` charges exactly 2.50 (the zone-1 table fare; the bus
flat fare is not used by the fare engine) and yields the session
`(start_minute = 540, paid_zones = 1)`. -/
theorem scenario1_first_trip_charge :
    compute_fare_with_transfer_window none 540 1
        [(1, (5 : ℚ)/2), (2, 15/4), (3, 49/10)] 60 =
      some (5/2, ⟨540, 1⟩) := by
  simp [compute_fare_with_transfer_window, fare_for_zones, dictMaxKey, dictFind,
    List.find?]

/-- Claim C3: a trip exactly at `start_minute + window_minutes` is still inside
the window (the discount rules apply: free if covered, otherwise the marginal
upgrade with `start_minute` kept), while a trip at
`start_minute + window_minutes + 1` starts a brand-new session charged the
full table fare with `start_minute` reset to the trip time. -/
theorem session_boundary_expiry (s : FareSession) (ft : List (Int × ℚ)) (w z : Int)
    (hne : ft ≠ []) :
    ((z ≤ s.paid_zones →
        compute_fare_with_transfer_window (some s) (s.start_minute + w) z ft w =
          some (0, s)) ∧
     (s.paid_zones < z →
        ∃ tc pc, fare_for_zones z ft = some tc ∧
          fare_for_zones s.paid_zones ft = some pc ∧
          compute_fare_with_transfer_window (some s) (s.start_minute + w) z ft w =
            some (max 0 (tc - pc), ⟨s.start_minute, z⟩))) ∧
    (∃ c, fare_for_zones z ft = some c ∧
       compute_fare_with_transfer_window (some s) (s.start_minute + w + 1) z ft w =
         some (c, ⟨s.start_minute + w + 1, z⟩)) := by
  obtain ⟨tc, htc⟩ := fare_for_zones_total hne z
  obtain ⟨pc, hpc⟩ := fare_for_zones_total hne s.paid_zones
  have hlt : ¬ (s.start_minute + w - s.start_minute > w) := by omega
  have hlt1 : s.start_minute + w + 1 - s.start_minute > w := by omega
  refine ⟨⟨?_, ?_⟩, ?_⟩
  · intro hz
    unfold compute_fare_with_transfer_window
    rw [htc]
    simp only [Option.some_bind]
    rw [if_neg hlt, hpc]
    simp [hz]
  · intro hz
    refine ⟨tc, pc, htc, hpc, ?_⟩
    unfold compute_fare_with_transfer_window
    rw [htc]
    simp only [Option.some_bind]
    rw [if_neg hlt, hpc]
    simp [not_le.mpr hz]
  · refine ⟨tc, htc, ?_⟩
    unfold compute_fare_with_transfer_window
    rw [htc]
    simp only [Option.some_bind]
    rw [if_pos hlt1]

/-- Claim C3 witness: session `(540, 1)`, window 60, a 2-zone trip at minute
601 = 540 + 60 + 1 starts a new full-price session. -/
theorem session_boundary_expiry_witness :
    compute_fare_with_transfer_window (some ⟨540, 1⟩) 601 2
        [(1, (5 : ℚ)/2), (2, 15/4), (3, 49/10)] 60 =
      some (15/4, ⟨601, 2⟩) := by
  obtain ⟨c, hc, hres⟩ :=
    (session_boundary_expiry ⟨540, 1⟩ [(1, (5 : ℚ)/2), (2, 15/4), (3, 49/10)] 60 2
      (by decide)).2
  have hc' : fare_for_zones 2 [(1, (5 : ℚ)/2), (2, 15/4), (3, 49/10)] = some (15/4) := by
    simp [fare_for_zones, dictMaxKey, dictFind, List.find?]
  rw [hc'] at hc
  have : c = 15/4 := by
    injection hc with h
    exact h.symm
  subst this
  have h601 : ((540 : Int) + 60 + 1) = 601 := by norm_num
  rw [h601] at hres
  exact hres

/-- Claim C4: within the window, a trip needing no more zones than already
paid charges exactly 0 and leaves the session unchanged. -/
theorem within_window_covered_free (s : FareSession) (t z w : Int)
    (ft : List (Int × ℚ)) (hne : ft ≠ [])
    (hin : t - s.start_minute ≤ w) (hz : z ≤ s.paid_zones) :
    compute_fare_with_transfer_window (some s) t z ft w = some (0, s) := by
  obtain ⟨tc, htc⟩ := fare_for_zones_total hne z
  obtain ⟨pc, hpc⟩ := fare_for_zones_total hne s.paid_zones
  unfold compute_fare_with_transfer_window
  rw [htc]
  simp only [Option.some_bind]
  rw [if_neg (not_lt.mpr hin), hpc]
  simp [hz]

/-- Claim C4 witness: session `(540, 2)`, a 1-zone trip at minute 560 rides
free and the session is unchanged. -/
theorem within_window_covered_free_witness :
    compute_fare_with_transfer_window (some ⟨540, 2⟩) 560 1
        [(1, (5 : ℚ)/2), (2, 15/4), (3, 49/10)] 60 =
      some (0, ⟨540, 2⟩) :=
  within_window_covered_free ⟨540, 2⟩ 560 1 60
    [(1, (5 : ℚ)/2), (2, 15/4), (3, 49/10)] (by decide) (by decide) (by decide)

/-- Claim C5: within the window, a trip needing strictly more zones than
already paid charges `max 0 (fare(required) − fare(paid))` and upgrades
`paid_zones` to the required level while keeping `start_minute`. -/
theorem within_window_upgrade_marginal (s : FareSession) (t z w : Int)
    (ft : List (Int × ℚ)) (hne : ft ≠ [])
    (hin : t - s.start_minute ≤ w) (hz : s.paid_zones < z) :
    ∃ tc pc, fare_for_zones z ft = some tc ∧
      fare_for_zones s.paid_zones ft = some pc ∧
      compute_fare_with_transfer_window (some s) t z ft w =
        some (max 0 (tc - pc), ⟨s.start_minute, z⟩) := by
  obtain ⟨tc, htc⟩ := fare_for_zones_total hne z
  obtain ⟨pc, hpc⟩ := fare_for_zones_total hne s.paid_zones
  refine ⟨tc, pc, htc, hpc, ?_⟩
  unfold compute_fare_with_transfer_window
  rw [htc]
  simp only [Option.some_bind]
  rw [if_neg (not_lt.mpr hin), hpc]
  simp [not_le.mpr hz]

/-- Claim C5 witness: scenario 2 — session `(540, 1)`, a 2-zone trip at
minute 560 charges `3.75 − 2.50 = 1.25` and upgrades to `(540, 2)`. -/
theorem within_window_upgrade_marginal_witness :
    compute_fare_with_transfer_window (some ⟨540, 1⟩) 560 2
        [(1, (5 : ℚ)/2), (2, 15/4), (3, 49/10)] 60 =
      some (5/4, ⟨540, 2⟩) := by
  obtain ⟨tc, pc, htc, hpc, hres⟩ :=
    within_window_upgrade_marginal ⟨540, 1⟩ 560 2 60
      [(1, (5 : ℚ)/2), (2, 15/4), (3, 49/10)] (by decide) (by decide) (by decide)
  have htc' : fare_for_zones 2 [(1, (5 : ℚ)/2), (2, 15/4), (3, 49/10)] = some (15/4) := by
    simp [fare_for_zones, dictMaxKey, dictFind, List.find?]
  have hpc' : fare_for_zones (FareSession.mk 540 1).paid_zones
      [(1, (5 : ℚ)/2), (2, 15/4), (3, 49/10)] = some (5/2) := by
    simp [fare_for_zones, dictMaxKey, dictFind, List.find?]
  rw [htc'] at htc
  rw [hpc'] at hpc
  injection htc with htc
  injection hpc with hpc
  subst htc
  subst hpc
  have hmax : max (0 : ℚ) (15/4 - 5/2) = 5/4 := by norm_num
  rw [hmax] at hres
  exact hres

/-- Claim C7: for a non-empty fare table (with the unique keys of a Python
dict), the lookup is total: every tabulated key returns its own fare, and any
zone count above the maximum key falls back to the fare at the maximum key. -/
theorem fare_lookup_total_and_caps (ft : List (Int × ℚ))
    (hne : ft ≠ []) (hnd : (dkeys ft).Nodup) :
    ∃ m fm, dictMaxKey ft = some m ∧ dictFind ft m = some fm ∧
      (∀ k f, (k, f) ∈ ft → fare_for_zones k ft = some f) ∧
      (∀ z, m < z → fare_for_zones z ft = some fm) := by
  have hm : ∃ m, dictMaxKey ft = some m := by
    unfold dictMaxKey
    cases hd : ft.map Prod.fst with
    | nil => exact absurd (List.map_eq_nil_iff.mp hd) hne
    | cons k ks => exact ⟨ks.foldl max k, rfl⟩
  obtain ⟨m, hm⟩ := hm
  obtain ⟨fm, hfm⟩ := dictFind_isSome_of_mem_keys (dictMaxKey_mem hm)
  refine ⟨m, fm, hm, hfm, ?_, ?_⟩
  · intro k f hkf
    unfold fare_for_zones
    rw [hm]
    simp only [Option.some_bind, hfm, Option.map_some]
    rw [dictFind_eq_of_nodup hnd hkf]
    rfl
  · intro z hz
    unfold fare_for_zones
    rw [hm]
    simp only [Option.some_bind, hfm, Option.map_some]
    have : z ∉ dkeys ft := by
      intro hmem
      exact absurd (dictMaxKey_ge hm z hmem) (not_le.mpr hz)
    rw [dictFind_eq_none this]
    rfl

/-- Claim C7 witness: in the scenario table the tabulated key 2 returns 3.75
and the out-of-range key 7 caps at the zone-3 fare 4.90. -/
theorem fare_lookup_total_and_caps_witness :
    fare_for_zones 2 [(1, (5 : ℚ)/2), (2, 15/4), (3, 49/10)] = some (15/4) ∧
    fare_for_zones 7 [(1, (5 : ℚ)/2), (2, 15/4), (3, 49/10)] = some (49/10) := by
  obtain ⟨m, fm, hm, hfm, htab, hcap⟩ :=
    fare_lookup_total_and_caps [(1, (5 : ℚ)/2), (2, 15/4), (3, 49/10)]
      (by decide) (by decide)
  have hm' : dictMaxKey [(1, (5 : ℚ)/2), (2, 15/4), (3, 49/10)] = some 3 := by
    simp [dictMaxKey]
  rw [hm'] at hm
  injection hm with hm
  subst hm
  have hfm' : dictFind [(1, (5 : ℚ)/2), (2, 15/4), (3, 49/10)] (3 : Int) =
      some (49/10) := by
    simp [dictFind, List.find?]
  rw [hfm'] at hfm
  injection hfm with hfm
  subst hfm
  exact ⟨htab 2 (15/4) (List.mem_cons_of_mem _ (List.mem_cons_self _ _)),
    hcap 7 (by norm_num)⟩

/-- Claim C10: for any prior session (or none), trip time, required zone
count, non-empty fare table and window, the fare engine succeeds and the
session it returns covers at least the zone level of the trip just taken. -/
theorem session_covers_required_zones (session : Option FareSession)
    (t z w : Int) (ft : List (Int × ℚ)) (hne : ft ≠ []) :
    ∃ charge s', compute_fare_with_transfer_window session t z ft w =
        some (charge, s') ∧ z ≤ s'.paid_zones := by
  obtain ⟨tc, htc⟩ := fare_for_zones_total hne z
  cases session with
  | none =>
    refine ⟨tc, ⟨t, z⟩, ?_, le_refl z⟩
    unfold compute_fare_with_transfer_window
    rw [htc]
    rfl
  | some s =>
    obtain ⟨pc, hpc⟩ := fare_for_zones_total hne s.paid_zones
    by_cases hwin : t - s.start_minute > w
    · refine ⟨tc, ⟨t, z⟩, ?_, le_refl z⟩
      unfold compute_fare_with_transfer_window
      rw [htc]
      simp [hwin]
    · by_cases hz : z ≤ s.paid_zones
      · refine ⟨0, s, ?_, hz⟩
        unfold compute_fare_with_transfer_window
        rw [htc]
        simp only [Option.some_bind]
        rw [if_neg hwin, hpc]
        simp [hz]
      · refine ⟨max 0 (tc - pc), ⟨s.start_minute, z⟩, ?_, le_refl z⟩
        unfold compute_fare_with_transfer_window
        rw [htc]
        simp only [Option.some_bind]
        rw [if_neg hwin, hpc]
        simp [hz]

/-- Claim C10 witness: an expired session `(400, 3)` followed by a 2-zone
trip at minute 540 ends with a session paid up to 2 zones. -/
theorem session_covers_required_zones_witness :
    ∃ charge s',
      compute_fare_with_transfer_window (some ⟨400, 3⟩) 540 2
          [(1, (5 : ℚ)/2), (2, 15/4), (3, 49/10)] 60 =
        some (charge, s') ∧ (2 : Int) ≤ s'.paid_zones :=
  session_covers_required_zones (some ⟨400, 3⟩) 540 2 60
    [(1, (5 : ℚ)/2), (2, 15/4), (3, 49/10)] (by decide)

/-- Claim C6: mode inference returns `TRAIN` exactly when the path has fewer
than two stations or some segment's mode label upper-cases to `TRAIN`, and
`BUS` exactly when the path has segments and every one is non-train. -/
theorem infer_mode_train_dominates (g : List (String × List Edge))
    (p : List String) (es : List Edge)
    (hseg : (p.zip p.tail).mapM (fun ab => edge_info g ab.1 ab.2) = some es) :
    (infer_mode_for_path g p = some "TRAIN" ↔
      p.length < 2 ∨ ∃ e ∈ es, upperStr e.mode = "TRAIN") ∧
    (infer_mode_for_path g p = some "BUS" ↔
      2 ≤ p.length ∧ ∀ e ∈ es, upperStr e.mode ≠ "TRAIN") := by
  unfold infer_mode_for_path
  by_cases hlen : p.length < 2
  · rw [if_pos hlen]
    constructor
    · simp [hlen]
    · constructor
      · intro h
        exfalso
        have : ("TRAIN" : String) = "BUS" := by injection h
        exact absurd this (by decide)
      · intro ⟨h2, _⟩
        exact absurd h2 (not_le.mpr hlen)
  · rw [if_neg hlen, hseg, Option.map_some']
    by_cases hany : es.any fun e => decide (upperStr e.mode = "TRAIN")
    · rw [if_pos hany]
      constructor
      · simp only [true_iff]
        right
        obtain ⟨e, he, hm⟩ := List.any_eq_true.mp hany
        exact ⟨e, he, of_decide_eq_true hm⟩
      · constructor
        · intro h
          exfalso
          have : ("TRAIN" : String) = "BUS" := by injection h
          exact absurd this (by decide)
        · intro ⟨_, hall⟩
          exfalso
          obtain ⟨e, he, hm⟩ := List.any_eq_true.mp hany
          exact hall e he (of_decide_eq_true hm)
    · rw [if_neg hany]
      have hall : ∀ e ∈ es, upperStr e.mode ≠ "TRAIN" := by
        intro e he hm
        exact hany (List.any_eq_true.mpr ⟨e, he, decide_eq_true hm⟩)
      constructor
      · constructor
        · intro h
          exfalso
          have : ("BUS" : String) = "TRAIN" := by injection h
          exact absurd this (by decide)
        · intro h
          rcases h with h | ⟨e, he, hm⟩
          · exact absurd h hlen
          · exact absurd hm (hall e he)
      · simp only [true_iff]
        exact ⟨not_lt.mp hlen, hall⟩

/-- Claim C6 witness: a two-segment path with one lowercase `"train"` segment
and one `"bus"` segment is classified `TRAIN`. -/
theorem infer_mode_train_dominates_witness :
    infer_mode_for_path
        [("A", [⟨"B", 3, "L1", "bus"⟩]), ("B", [⟨"C", 4, "L2", "train"⟩]),
         ("C", [])]
        ["A", "B", "C"] = some "TRAIN" := by
  have h := infer_mode_train_dominates
    [("A", [⟨"B", 3, "L1", "bus"⟩]), ("B", [⟨"C", 4, "L2", "train"⟩]), ("C", [])]
    ["A", "B", "C"]
    [⟨"B", 3, "L1", "bus"⟩, ⟨"C", 4, "L2", "train"⟩] (by decide)
  exact h.1.mpr (Or.inr ⟨⟨"C", 4, "L2", "train"⟩, by decide, by decide⟩)

/-! ### dictSet lemmas -/

theorem dictFind_map_update_self {α β : Type} [DecidableEq α] :
    ∀ (d : List (α × β)) (k : α) (v : β), k ∈ dkeys d →
      dictFind (d.map fun p => if p.1 = k then (k, v) else p) k = some v := by
  intro d k v
  induction d with
  | nil => intro h; simp [dkeys] at h
  | cons p rest ih =>
    intro hk
    by_cases hp : p.1 = k
    · simp only [List.map_cons, if_pos hp]
      unfold dictFind
      rw [List.find?_cons_of_pos _ (by simp)]
      rfl
    · simp only [List.map_cons, if_neg hp]
      have hk' : k ∈ dkeys rest := by
        unfold dkeys at hk ⊢
        simp only [List.map_cons, List.mem_cons] at hk
        rcases hk with h | h
        · exact absurd h.symm hp
        · exact h
      have hrec := ih hk'
      unfold dictFind at hrec ⊢
      rw [List.find?_cons_of_neg _ (by simp [hp])]
      exact hrec

theorem dictFind_append_self {α β : Type} [DecidableEq α] :
    ∀ (d : List (α × β)) (k : α) (v : β), k ∉ dkeys d →
      dictFind (d ++ [(k, v)]) k = some v := by
  intro d k v
  induction d with
  | nil =>
    intro _
    unfold dictFind
    rw [List.nil_append, List.find?_cons_of_pos _ (by simp)]
    rfl
  | cons p rest ih =>
    intro hk
    have hp : p.1 ≠ k := by
      intro he
      exact hk (by unfold dkeys; simp [he])
    have hk' : k ∉ dkeys rest := by
      intro h
      exact hk (by unfold dkeys at h ⊢; simp [h])
    have hrec := ih hk'
    unfold dictFind at hrec ⊢
    rw [List.cons_append, List.find?_cons_of_neg _ (by simp [hp])]
    exact hrec

theorem dictFind_dictSet_self {α β : Type} [DecidableEq α] (d : List (α × β)) (k : α) (v : β) :
    dictFind (dictSet d k v) k = some v := by
  unfold dictSet
  by_cases hk : k ∈ dkeys d
  · rw [if_pos hk]
    exact dictFind_map_update_self d k v hk
  · rw [if_neg hk]
    exact dictFind_append_self d k v hk

theorem dictFind_map_update_ne {α β : Type} [DecidableEq α] :
    ∀ (d : List (α × β)) (k : α) (v : β) (a : α), a ≠ k →
      dictFind (d.map fun p => if p.1 = k then (k, v) else p) a = dictFind d a := by
  intro d k v a hne
  induction d with
  | nil => rfl
  | cons p rest ih =>
    by_cases hp : p.1 = k
    · simp only [List.map_cons, if_pos hp]
      have hka : ¬ k = a := fun h => hne h.symm
      have hpa : ¬ p.1 = a := fun h => hka (hp.symm.trans h)
      unfold dictFind at ih ⊢
      rw [List.find?_cons_of_neg _ (by simp [hka]),
        List.find?_cons_of_neg _ (by simp [hpa])]
      exact ih
    · simp only [List.map_cons, if_neg hp]
      by_cases hpa : p.1 = a
      · unfold dictFind
        rw [List.find?_cons_of_pos _ (by simp [hpa]),
          List.find?_cons_of_pos _ (by simp [hpa])]
      · unfold dictFind at ih ⊢
        rw [List.find?_cons_of_neg _ (by simp [hpa]),
          List.find?_cons_of_neg _ (by simp [hpa])]
        exact ih

theorem dictFind_append_ne {α β : Type} [DecidableEq α] :
    ∀ (d : List (α × β)) (k : α) (v : β) (a : α), a ≠ k →
      dictFind (d ++ [(k, v)]) a = dictFind d a := by
  intro d k v a hne
  have hka : ¬ k = a := fun h => hne h.symm
  induction d with
  | nil =>
    unfold dictFind
    rw [List.nil_append, List.find?_cons_of_neg _ (by simp [hka])]
  | cons p rest ih =>
    by_cases hpa : p.1 = a
    · unfold dictFind
      rw [List.cons_append, List.find?_cons_of_pos _ (by simp [hpa]),
        List.find?_cons_of_pos _ (by simp [hpa])]
    · unfold dictFind at ih ⊢
      rw [List.cons_append, List.find?_cons_of_neg _ (by simp [hpa]),
        List.find?_cons_of_neg _ (by simp [hpa])]
      exact ih

theorem dictFind_dictSet_ne {α β : Type} [DecidableEq α] (d : List (α × β))
    (k : α) (v : β) (a : α) (hne : a ≠ k) :
    dictFind (dictSet d k v) a = dictFind d a := by
  unfold dictSet
  by_cases hk : k ∈ dkeys d
  · rw [if_pos hk]
    exact dictFind_map_update_ne d k v a hne
  · rw [if_neg hk]
    exact dictFind_append_ne d k v a hne

/-! ### pqMin lemmas -/

theorem pqMin_none_iff (pq : List (Int × String)) : pqMin pq = none ↔ pq = [] := by
  cases pq <;> simp [pqMin]

theorem tupLt_true_fst_le {a b : Int × String} (h : tupLt a b = true) : a.1 ≤ b.1 := by
  unfold tupLt at h
  simp only [Bool.or_eq_true, Bool.and_eq_true, decide_eq_true_eq] at h
  rcases h with h | ⟨h, _⟩
  · exact le_of_lt h
  · exact le_of_eq h

theorem tupLt_false_fst_le {a b : Int × String} (h : tupLt a b = false) : b.1 ≤ a.1 := by
  unfold tupLt at h
  simp only [Bool.or_eq_false_iff, decide_eq_false_iff_not] at h
  exact le_of_not_lt h.1

theorem foldl_pick_mem : ∀ (xs : List (Int × String)) (x : Int × String),
    xs.foldl (fun m y => if tupLt y m then y else m) x ∈ x :: xs := by
  intro xs
  induction xs with
  | nil => intro x; exact List.mem_cons_self x []
  | cons y ys ih =>
    intro x
    simp only [List.foldl_cons]
    rcases List.mem_cons.mp (ih (if tupLt y x then y else x)) with h | h
    · rw [h]
      by_cases ht : tupLt y x = true
      · rw [if_pos ht]
        exact List.mem_cons_of_mem x (List.mem_cons_self y ys)
      · rw [if_neg ht]
        exact List.mem_cons_self x (y :: ys)
    · exact List.mem_cons_of_mem x (List.mem_cons_of_mem y h)

theorem foldl_pick_le : ∀ (xs : List (Int × String)) (x : Int × String),
    (xs.foldl (fun m y => if tupLt y m then y else m) x).1 ≤ x.1 ∧
    ∀ z ∈ xs, (xs.foldl (fun m y => if tupLt y m then y else m) x).1 ≤ z.1 := by
  intro xs
  induction xs with
  | nil => intro x; exact ⟨le_refl _, by intro z hz; cases hz⟩
  | cons y ys ih =>
    intro x
    simp only [List.foldl_cons]
    obtain ⟨h1, h2⟩ := ih (if tupLt y x then y else x)
    have hxy : (if tupLt y x then y else x).1 ≤ x.1 ∧ (if tupLt y x then y else x).1 ≤ y.1 := by
      by_cases ht : tupLt y x = true
      · rw [if_pos ht]
        exact ⟨tupLt_true_fst_le ht, le_refl _⟩
      · rw [if_neg ht]
        exact ⟨le_refl _, tupLt_false_fst_le (Bool.eq_false_iff.mpr ht)⟩
    refine ⟨le_trans h1 hxy.1, ?_⟩
    intro z hz
    rcases List.mem_cons.mp hz with h | h
    · rw [h]
      exact le_trans h1 hxy.2
    · exact h2 z h

theorem pqMin_mem {pq : List (Int × String)} {m : Int × String}
    (h : pqMin pq = some m) : m ∈ pq := by
  cases pq with
  | nil => cases h
  | cons x xs =>
    simp only [pqMin, Option.some.injEq] at h
    rw [← h]
    exact foldl_pick_mem xs x

theorem pqMin_fst_le {pq : List (Int × String)} {m : Int × String}
    (h : pqMin pq = some m) : ∀ z ∈ pq, m.1 ≤ z.1 := by
  cases pq with
  | nil => cases h
  | cons x xs =>
    simp only [pqMin, Option.some.injEq] at h
    rw [← h]
    intro z hz
    rcases List.mem_cons.mp hz with hzx | hzx
    · rw [hzx]
      exact (foldl_pick_le xs x).1
    · exact (foldl_pick_le xs x).2 z hzx

/-! ### edge_info lemmas -/

theorem edge_info_spec {g : List (String × List Edge)} {u v : String} {e : Edge}
    (h : edge_info g u v = some e) :
    ∃ es, dictFind g u = some es ∧ e ∈ es ∧ e.to_id = v := by
  unfold edge_info at h
  cases hf : dictFind g u with
  | none => rw [hf] at h; cases h
  | some es =>
    rw [hf] at h
    simp only [Option.some_bind] at h
    refine ⟨es, rfl, List.mem_of_find?_eq_some h, ?_⟩
    have := List.find?_some h
    simpa using this

theorem find?_toId_unique : ∀ (es : List Edge) (e : Edge) (v : String),
    (es.map Edge.to_id).Nodup → e ∈ es → e.to_id = v →
    es.find? (fun x => decide (x.to_id = v)) = some e := by
  intro es
  induction es with
  | nil => intro e v _ he; cases he
  | cons e0 rest ih =>
    intro e v hnd he hv
    simp only [List.map_cons, List.nodup_cons] at hnd
    by_cases h0 : e0.to_id = v
    · have he0 : e = e0 := by
        rcases List.mem_cons.mp he with h | h
        · exact h
        · exfalso
          apply hnd.1
          rw [h0, ← hv]
          exact List.mem_map.mpr ⟨e, h, rfl⟩
      rw [List.find?_cons_of_pos _ (by simp [h0]), he0]
    · have he' : e ∈ rest := by
        rcases List.mem_cons.mp he with h | h
        · exact absurd (h ▸ hv) h0
        · exact h
      rw [List.find?_cons_of_neg _ (by simp [h0])]
      exact ih e v hnd.2 he' hv

theorem edge_info_unique {g : List (String × List Edge)} {u v : String} {e : Edge}
    {es : List Edge} (hf : dictFind g u = some es)
    (hnd : (es.map Edge.to_id).Nodup) (he : e ∈ es) (hv : e.to_id = v) :
    edge_info g u v = some e := by
  unfold edge_info
  rw [hf]
  simp only [Option.some_bind]
  exact find?_toId_unique es e v hnd he hv

theorem goodGraph_edge {g : List (String × List Edge)} {u : String}
    {es : List Edge} {e : Edge} (hg : goodGraph g)
    (hf : dictFind g u = some es) (he : e ∈ es) :
    e.to_id ∈ dkeys g ∧ 0 < e.minutes :=
  hg.2.1 (u, es) (dictFind_mem hf) e he

theorem goodGraph_nodupEdges {g : List (String × List Edge)} {u : String}
    {es : List Edge} (hg : goodGraph g) (hf : dictFind g u = some es) :
    (es.map Edge.to_id).Nodup :=
  hg.2.2 (u, es) (dictFind_mem hf)

/-! ### pathCost lemmas -/

theorem pathCost_single (g : List (String × List Edge)) (x : String) :
    pathCost g [x] = some 0 := rfl

theorem pathCost_cons₂ (g : List (String × List Edge)) (a b : String)
    (rest : List String) :
    pathCost g (a :: b :: rest) = (edge_info g a b).bind fun e =>
      (pathCost g (b :: rest)).map fun c => e.minutes + c := rfl

theorem pathCost_concat (g : List (String × List Edge)) :
    ∀ (p : List String) (u v : String) (e : Edge) (c : Int),
      p.getLast? = some u → edge_info g u v = some e → pathCost g p = some c →
      pathCost g (p ++ [v]) = some (c + e.minutes) := by
  intro p
  induction p with
  | nil => intro u v e c hl; cases hl
  | cons a q ih =>
    intro u v e c hl he hc
    cases q with
    | nil =>
      simp only [List.getLast?_singleton, Option.some.injEq] at hl
      have hc0 : c = 0 := by
        rw [pathCost_single] at hc
        injection hc with h
        exact h.symm
      subst hl
      subst hc0
      rw [List.singleton_append, pathCost_cons₂, he]
      simp only [Option.some_bind, pathCost_single, Option.map_some']
      congr 1
      ring
    | cons b q' =>
      rw [List.getLast?_cons_cons] at hl
      rw [pathCost_cons₂] at hc
      cases hab : edge_info g a b with
      | none => rw [hab] at hc; cases hc
      | some e1 =>
        rw [hab] at hc
        simp only [Option.some_bind] at hc
        cases hbc : pathCost g (b :: q') with
        | none => rw [hbc] at hc; cases hc
        | some c2 =>
          rw [hbc] at hc
          simp only [Option.map_some', Option.some.injEq] at hc
          have hstep := ih u v e c2 hl he hbc
          rw [List.cons_append] at hstep
          rw [List.cons_append, List.cons_append, pathCost_cons₂, hab]
          simp only [Option.some_bind]
          rw [hstep]
          simp only [Option.map_some', Option.some.injEq]
          rw [← hc]
          ring

theorem pathCost_concat_split (g : List (String × List Edge)) :
    ∀ (q : List String) (x : String) (c : Int), q ≠ [] →
      pathCost g (q ++ [x]) = some c →
      ∃ u e c', q.getLast? = some u ∧ edge_info g u x = some e ∧
        pathCost g q = some c' ∧ c = c' + e.minutes := by
  intro q
  induction q with
  | nil => intro x c h; exact absurd rfl h
  | cons a q' ih =>
    intro x c _ hc
    cases q' with
    | nil =>
      rw [List.singleton_append, pathCost_cons₂] at hc
      cases hax : edge_info g a x with
      | none => rw [hax] at hc; cases hc
      | some e =>
        rw [hax] at hc
        simp only [Option.some_bind, pathCost_single, Option.map_some',
          Option.some.injEq] at hc
        refine ⟨a, e, 0, List.getLast?_singleton a, hax, pathCost_single g a, ?_⟩
        rw [← hc]
        ring
    | cons b q'' =>
      rw [List.cons_append, List.cons_append, pathCost_cons₂] at hc
      cases hab : edge_info g a b with
      | none => rw [hab] at hc; cases hc
      | some e1 =>
        rw [hab] at hc
        simp only [Option.some_bind] at hc
        cases hbc : pathCost g (b :: (q'' ++ [x])) with
        | none => rw [hbc] at hc; cases hc
        | some c2 =>
          rw [hbc] at hc
          simp only [Option.map_some', Option.some.injEq] at hc
          have hbc' : pathCost g ((b :: q'') ++ [x]) = some c2 := by
            rw [List.cons_append]
            exact hbc
          obtain ⟨u, e, c', hlast, hex, hcost, hsum⟩ :=
            ih x c2 (by simp) hbc'
          refine ⟨u, e, e1.minutes + c', ?_, hex, ?_, ?_⟩
          · rw [List.getLast?_cons_cons]
            exact hlast
          · rw [pathCost_cons₂, hab]
            simp only [Option.some_bind, hcost, Option.map_some']
          · rw [← hc, hsum]
            ring

/-! ### The frontier lower-bound argument -/

theorem walk_lower_bound (g : List (String × List Edge)) (s : String)
    (dist : List (String × Int)) (visited : List String)
    (hg : goodGraph g)
    (hS : dictFind dist s = some 0)
    (hrelax : ∀ u ∈ visited, ∀ du, dictFind dist u = some du →
      ∀ es, dictFind g u = some es → ∀ e ∈ es,
        ∃ dt, dictFind dist e.to_id = some dt ∧ dt ≤ du + e.minutes) :
    ∀ (p : List String) (x : String) (c : Int), WalkFromTo g s x p c →
      (∃ dx, dictFind dist x = some dx ∧ dx ≤ c ∧ x ∈ visited) ∨
      (∃ y dy, y ∉ visited ∧ dictFind dist y = some dy ∧ dy ≤ c) := by
  intro p
  induction p using List.reverseRecOn with
  | nil =>
    intro x c hw
    exact absurd hw.1 (by simp)
  | append_singleton q x0 ih =>
    intro x c hw
    obtain ⟨hhead, hlast, hcost⟩ := hw
    have hx : x = x0 := by
      rw [List.getLast?_concat] at hlast
      injection hlast with h
      exact h.symm
    subst hx
    cases q with
    | nil =>
      have hsx : x = s := by
        rw [List.nil_append, List.head?_cons] at hhead
        injection hhead with h
      have hc0 : c = 0 := by
        rw [List.nil_append, pathCost_single] at hcost
        injection hcost with h
        exact h.symm
      subst hsx
      subst hc0
      by_cases hv : x ∈ visited
      · exact Or.inl ⟨0, hS, le_refl 0, hv⟩
      · exact Or.inr ⟨x, 0, hv, hS, le_refl 0⟩
    | cons a q' =>
      obtain ⟨u, e, c', hlastq, hex, hcostq, hsum⟩ :=
        pathCost_concat_split g (a :: q') x c (by simp) hcost
      have ha : a = s := by
        rw [List.cons_append, List.head?_cons] at hhead
        injection hhead with h
      have hheadq : (a :: q').head? = some s := by
        rw [List.head?_cons, ha]
      rcases ih u c' ⟨hheadq, hlastq, hcostq⟩ with
        ⟨du, hdu, hduc, huvis⟩ | ⟨y, dy, hy, hdy, hdyc⟩
      · obtain ⟨es, hfes, hees, hto⟩ := edge_info_spec hex
        obtain ⟨dt, hdt, hdtle⟩ := hrelax u huvis du hdu es hfes e hees
        rw [hto] at hdt
        have hle : dt ≤ c := by omega
        by_cases hxv : x ∈ visited
        · exact Or.inl ⟨dt, hdt, hle, hxv⟩
        · exact Or.inr ⟨x, dt, hxv, hdt, hle⟩
      · obtain ⟨es, hfes, hees, _⟩ := edge_info_spec hex
        have hpos : 0 < e.minutes := (goodGraph_edge hg hfes hees).2
        exact Or.inr ⟨y, dy, hy, hdy, by omega⟩

/-! ### Settling the minimum of the frontier -/

theorem settled_min_opt (g : List (String × List Edge)) (s : String)
    {dist : List (String × Int)} {prev : List (String × Option String)}
    {pq : List (Int × String)} {visited : List String} (hg : goodGraph g)
    (hInv : Inv g s dist prev pq visited) {m : Int × String}
    (hmin : pqMin pq = some m) (hfresh : m.2 ∉ visited) :
    dictFind dist m.2 = some m.1 ∧
    ∀ p c, WalkFromTo g s m.2 p c → m.1 ≤ c := by
  have hmem : (m.1, m.2) ∈ pq := by
    rw [Prod.mk.eta]
    exact pqMin_mem hmin
  obtain ⟨dm, hdm, hdmle⟩ := hInv.pqInDist m.1 m.2 hmem
  have hfront := hInv.frontier m.2 dm hdm hfresh
  have hge := pqMin_fst_le hmin (dm, m.2) hfront
  have heq : dm = m.1 := le_antisymm hdmle hge
  subst heq
  refine ⟨hdm, ?_⟩
  intro p c hw
  rcases walk_lower_bound g s dist visited hg hInv.distS hInv.visitedRelaxed p m.2 c hw with
    ⟨dx, hdx, hdxc, hxvis⟩ | ⟨y, dy, hy, hdy, hdyc⟩
  · exact absurd hxvis hfresh
  · have hfy := hInv.frontier y dy hdy hy
    have := pqMin_fst_le hmin (dy, y) hfy
    omega

theorem pair_ne_of_snd_ne {d : Int} {v : String} {m : Int × String}
    (h : v ≠ m.2) : (d, v) ≠ m :=
  fun he => h (congrArg Prod.snd he)

/-- Popping a stale entry keeps the invariant. -/
theorem Inv.eraseStale {g : List (String × List Edge)} {s : String}
    {dist : List (String × Int)} {prev : List (String × Option String)}
    {pq : List (Int × String)} {visited : List String}
    (hInv : Inv g s dist prev pq visited) {m : Int × String}
    (hstale : m.2 ∈ visited) :
    Inv g s dist prev (pq.erase m) visited := by
  have hsub : ∀ x : Int × String, x ∈ pq.erase m → x ∈ pq :=
    fun x hx => (List.erase_sublist m pq).mem hx
  refine ⟨hInv.distS, hInv.prevS, hInv.distNonneg, ?_, ?_, hInv.visitedKeys,
    hInv.visitedDist, ?_, ?_, hInv.visitedRelaxed, hInv.visitedOpt, hInv.prevChain⟩
  · intro d v hdv
    exact hInv.pqInDist d v (hsub _ hdv)
  · intro d v hdv
    exact hInv.pqKeys d v (hsub _ hdv)
  · intro v dv hdv hv
    have hne : v ≠ m.2 := fun he => hv (he ▸ hstale)
    exact (List.mem_erase_of_ne (pair_ne_of_snd_ne hne)).mpr
      (hInv.frontier v dv hdv hv)
  · intro u hu du hdu d v hdv
    exact hInv.visitedLePq u hu du hdu d v (hsub _ hdv)

/-- Popping a fresh minimum establishes the mid-relaxation invariant with no
edges processed yet. -/
theorem MidInv.ofSettle {g : List (String × List Edge)} {s : String}
    {dist : List (String × Int)} {prev : List (String × Option String)}
    {pq : List (Int × String)} {visited : List String} (hg : goodGraph g)
    (hInv : Inv g s dist prev pq visited) {m : Int × String}
    (hmin : pqMin pq = some m) (hfresh : m.2 ∉ visited)
    {es : List Edge} (hes : dictFind g m.2 = some es) :
    MidInv g s m.2 m.1 es dist prev (pq.erase m) visited [] := by
  obtain ⟨hdm, hopt⟩ := settled_min_opt g s hg hInv hmin hfresh
  have hmem : (m.1, m.2) ∈ pq := by
    rw [Prod.mk.eta]
    exact pqMin_mem hmin
  have hsub : ∀ x : Int × String, x ∈ pq.erase m → x ∈ pq :=
    fun x hx => (List.erase_sublist m pq).mem hx
  refine ⟨hfresh, hes, hdm, hInv.distS, hInv.prevS, hInv.distNonneg, ?_, ?_, ?_, ?_,
    ?_, ?_, ?_, ?_, ?_, hInv.visitedRelaxed, ?_⟩
  · intro d v hdv
    exact hInv.pqInDist d v (hsub _ hdv)
  · intro d v hdv
    exact hInv.pqKeys d v (hsub _ hdv)
  · intro v hv
    rcases List.mem_cons.mp hv with h | h
    · exact h ▸ hInv.pqKeys m.1 m.2 hmem
    · exact hInv.visitedKeys v h
  · intro v hv
    rcases List.mem_cons.mp hv with h | h
    · exact ⟨m.1, h ▸ hdm⟩
    · exact hInv.visitedDist v h
  · intro v dv hdv hv
    have hv1 : v ∉ visited := fun h => hv (List.mem_cons_of_mem _ h)
    have hv2 : v ≠ m.2 := fun h => hv (h ▸ List.mem_cons_self _ _)
    exact (List.mem_erase_of_ne (pair_ne_of_snd_ne hv2)).mpr
      (hInv.frontier v dv hdv hv1)
  · intro u hu du hdu d v hdv
    rcases List.mem_cons.mp hu with h | h
    · have : du = m.1 := by
        rw [h] at hdu
        rw [hdu] at hdm
        injection hdm
      rw [this]
      exact pqMin_fst_le hmin (d, v) (hsub _ hdv)
    · exact hInv.visitedLePq u h du hdu d v (hsub _ hdv)
  · intro u hu du hdu
    rcases List.mem_cons.mp hu with h | h
    · rw [h] at hdu
      rw [hdu] at hdm
      injection hdm with h'
      exact le_of_eq h'
    · exact hInv.visitedLePq u h du hdu m.1 m.2 hmem
  · intro u hu du hdu p c hw
    rcases List.mem_cons.mp hu with h | h
    · subst h
      have : du = m.1 := by
        rw [hdu] at hdm
        injection hdm
      rw [this]
      exact hopt p c hw
    · exact hInv.visitedOpt u h du hdu p c hw
  · intro v dv hdv hvs
    obtain ⟨u, e, du, h1, h2, h3, h4, h5, h6⟩ := hInv.prevChain v dv hdv hvs
    exact ⟨u, e, du, h1, List.mem_cons_of_mem _ h2, h3, h4, h5, h6⟩
  · intro e he
    cases he

/-! ### Relaxation preserves the mid-loop invariant -/

theorem relax_eq_insert {cur : String} {cur_dist : Int}
    {st : List (String × Int) × List (String × Option String) × List (Int × String)}
    {e : Edge} (hf : dictFind st.1 e.to_id = none) :
    relax cur cur_dist st e =
      (dictSet st.1 e.to_id (cur_dist + e.minutes),
       dictSet st.2.1 e.to_id (some cur),
       (cur_dist + e.minutes, e.to_id) :: st.2.2) := by
  unfold relax
  rw [hf]

theorem relax_eq_update {cur : String} {cur_dist : Int}
    {st : List (String × Int) × List (String × Option String) × List (Int × String)}
    {e : Edge} {d : Int} (hf : dictFind st.1 e.to_id = some d)
    (hlt : cur_dist + e.minutes < d) :
    relax cur cur_dist st e =
      (dictSet st.1 e.to_id (cur_dist + e.minutes),
       dictSet st.2.1 e.to_id (some cur),
       (cur_dist + e.minutes, e.to_id) :: st.2.2) := by
  unfold relax
  rw [hf]
  simp only [if_pos hlt]

theorem relax_eq_skip {cur : String} {cur_dist : Int}
    {st : List (String × Int) × List (String × Option String) × List (Int × String)}
    {e : Edge} {d : Int} (hf : dictFind st.1 e.to_id = some d)
    (hge : ¬ cur_dist + e.minutes < d) :
    relax cur cur_dist st e = st := by
  unfold relax
  rw [hf]
  simp only [if_neg hge]

theorem MidInv.push {g : List (String × List Edge)} {s cur : String} {dcur : Int}
    {es : List Edge}
    {dist : List (String × Int)} {prev : List (String × Option String)}
    {pq : List (Int × String)} {visited : List String} {done : List Edge}
    (hg : goodGraph g)
    (h : MidInv g s cur dcur es dist prev pq visited done)
    {e : Edge} (he : e ∈ es)
    (hcase : dictFind dist e.to_id = none ∨
      ∃ d0, dictFind dist e.to_id = some d0 ∧ dcur + e.minutes < d0) :
    MidInv g s cur dcur es (dictSet dist e.to_id (dcur + e.minutes))
      (dictSet prev e.to_id (some cur))
      ((dcur + e.minutes, e.to_id) :: pq) visited (done ++ [e]) := by
  obtain ⟨htoKey, hw⟩ := goodGraph_edge hg h.curEdges he
  have hdcur0 : 0 ≤ dcur := h.distNonneg cur dcur h.dcurEq
  have htoNot : e.to_id ∉ cur :: visited := by
    intro hmem
    obtain ⟨dto, hdto⟩ := h.visitedDist e.to_id hmem
    have hle := h.visitedLeDcur e.to_id hmem dto hdto
    rcases hcase with hnone | ⟨d0, hd0, hlt⟩
    · rw [hnone] at hdto
      cases hdto
    · rw [hd0] at hdto
      injection hdto with h'
      omega
  have hsne : s ≠ e.to_id := by
    intro h'
    rcases hcase with hnone | ⟨d0, hd0, hlt⟩
    · rw [← h', h.distS] at hnone
      cases hnone
    · rw [← h', h.distS] at hd0
      injection hd0 with h''
      omega
  have hnewto : dictFind (dictSet dist e.to_id (dcur + e.minutes)) e.to_id =
      some (dcur + e.minutes) := dictFind_dictSet_self dist e.to_id (dcur + e.minutes)
  have hold : ∀ a, a ≠ e.to_id →
      dictFind (dictSet dist e.to_id (dcur + e.minutes)) a = dictFind dist a :=
    fun a ha => dictFind_dictSet_ne dist e.to_id (dcur + e.minutes) a ha
  have hnewp : dictFind (dictSet prev e.to_id (some cur)) e.to_id = some (some cur) :=
    dictFind_dictSet_self prev e.to_id (some cur)
  have holdp : ∀ a, a ≠ e.to_id →
      dictFind (dictSet prev e.to_id (some cur)) a = dictFind prev a :=
    fun a ha => dictFind_dictSet_ne prev e.to_id (some cur) a ha
  have hdec : ∀ v dv, dictFind dist v = some dv →
      ∃ dv', dictFind (dictSet dist e.to_id (dcur + e.minutes)) v = some dv' ∧
        dv' ≤ dv := by
    intro v dv hdv
    by_cases hv : v = e.to_id
    · subst hv
      rcases hcase with hnone | ⟨d0, hd0, hlt⟩
      · rw [hnone] at hdv
        cases hdv
      · rw [hd0] at hdv
        injection hdv with h'
        exact ⟨dcur + e.minutes, hnewto, by omega⟩
    · exact ⟨dv, by rw [hold v hv]; exact hdv, le_refl dv⟩
  have hsame : ∀ v ∈ cur :: visited,
      dictFind (dictSet dist e.to_id (dcur + e.minutes)) v = dictFind dist v :=
    fun v hv => hold v (fun h' => htoNot (h' ▸ hv))
  have hcurne : cur ≠ e.to_id :=
    fun h' => htoNot (by rw [← h']; exact List.mem_cons_self _ _)
  refine ⟨h.curNotOld, h.curEdges, ?_, ?_, ?_, ?_, ?_, ?_, h.visitedKeys, ?_, ?_,
    ?_, ?_, ?_, ?_, ?_, ?_⟩
  · rw [hold cur hcurne]
    exact h.dcurEq
  · rw [hold s hsne]
    exact h.distS
  · rw [holdp s hsne]
    exact h.prevS
  · intro v d hvd
    by_cases hv : v = e.to_id
    · subst hv
      rw [hnewto] at hvd
      injection hvd with h'
      omega
    · rw [hold v hv] at hvd
      exact h.distNonneg v d hvd
  · intro d v hdv
    rcases List.mem_cons.mp hdv with hh | hh
    · have hd : d = dcur + e.minutes := congrArg Prod.fst hh
      have hv : v = e.to_id := congrArg Prod.snd hh
      subst hd
      subst hv
      exact ⟨dcur + e.minutes, hnewto, le_refl _⟩
    · obtain ⟨dv, hodv, hlev⟩ := h.pqInDist d v hh
      obtain ⟨dv', hdv', hdec'⟩ := hdec v dv hodv
      exact ⟨dv', hdv', le_trans hdec' hlev⟩
  · intro d v hdv
    rcases List.mem_cons.mp hdv with hh | hh
    · have hv : v = e.to_id := congrArg Prod.snd hh
      subst hv
      exact htoKey
    · exact h.pqKeys d v hh
  · intro v hv
    obtain ⟨dv, hdv⟩ := h.visitedDist v hv
    exact ⟨dv, by rw [hsame v hv]; exact hdv⟩
  · intro v dv hdv hvnot
    by_cases hv : v = e.to_id
    · subst hv
      rw [hnewto] at hdv
      injection hdv with h'
      rw [← h']
      exact List.mem_cons_self _ _
    · rw [hold v hv] at hdv
      exact List.mem_cons_of_mem _ (h.frontier v dv hdv hvnot)
  · intro u hu du hdu d v hdv
    rw [hsame u hu] at hdu
    rcases List.mem_cons.mp hdv with hh | hh
    · have hd : d = dcur + e.minutes := congrArg Prod.fst hh
      have hle := h.visitedLeDcur u hu du hdu
      omega
    · exact h.visitedLePq u hu du hdu d v hh
  · intro u hu du hdu
    rw [hsame u hu] at hdu
    exact h.visitedLeDcur u hu du hdu
  · intro u hu du hdu p c hwalk
    rw [hsame u hu] at hdu
    exact h.visitedOpt u hu du hdu p c hwalk
  · intro v dv hdv hvs
    by_cases hv : v = e.to_id
    · subst hv
      rw [hnewto] at hdv
      injection hdv with h'
      refine ⟨cur, e, dcur, hnewp, List.mem_cons_self _ _,
        edge_info_unique h.curEdges (goodGraph_nodupEdges hg h.curEdges) he rfl,
        ?_, ?_, ?_⟩
      · rw [hold cur hcurne]
        exact h.dcurEq
      · omega
      · omega
    · rw [hold v hv] at hdv
      obtain ⟨u, e', du, p1, p2, p3, p4, p5, p6⟩ := h.prevChain v dv hdv hvs
      have hune : u ≠ e.to_id := fun h' => htoNot (h' ▸ p2)
      refine ⟨u, e', du, ?_, p2, p3, ?_, p5, p6⟩
      · rw [holdp v hv]
        exact p1
      · rw [hold u hune]
        exact p4
  · intro u hu du hdu es' hes' e' he'
    rw [hsame u (List.mem_cons_of_mem _ hu)] at hdu
    obtain ⟨dt, hdt, hle⟩ := h.oldRelaxed u hu du hdu es' hes' e' he'
    obtain ⟨dt', hdt', hdec'⟩ := hdec e'.to_id dt hdt
    exact ⟨dt', hdt', le_trans hdec' hle⟩
  · intro e' he'
    rcases List.mem_append.mp he' with hh | hh
    · obtain ⟨dt, hdt, hle⟩ := h.curRelaxed e' hh
      obtain ⟨dt', hdt', hdec'⟩ := hdec e'.to_id dt hdt
      exact ⟨dt', hdt', le_trans hdec' hle⟩
    · have : e' = e := by
        rcases List.mem_cons.mp hh with h' | h'
        · exact h'
        · cases h'
      subst this
      exact ⟨dcur + e'.minutes, hnewto, le_refl _⟩

theorem MidInv.step {g : List (String × List Edge)} {s cur : String} {dcur : Int}
    {es : List Edge}
    {dist : List (String × Int)} {prev : List (String × Option String)}
    {pq : List (Int × String)} {visited : List String} {done : List Edge}
    (hg : goodGraph g)
    (h : MidInv g s cur dcur es dist prev pq visited done)
    {e : Edge} (he : e ∈ es) :
    MidInv g s cur dcur es (relax cur dcur (dist, prev, pq) e).1
      (relax cur dcur (dist, prev, pq) e).2.1
      (relax cur dcur (dist, prev, pq) e).2.2 visited (done ++ [e]) := by
  cases hf : dictFind dist e.to_id with
  | none =>
    rw [relax_eq_insert hf]
    exact MidInv.push hg h he (Or.inl hf)
  | some d =>
    by_cases hlt : dcur + e.minutes < d
    · rw [relax_eq_update hf hlt]
      exact MidInv.push hg h he (Or.inr ⟨d, hf, hlt⟩)
    · rw [relax_eq_skip hf hlt]
      refine ⟨h.curNotOld, h.curEdges, h.dcurEq, h.distS, h.prevS, h.distNonneg,
        h.pqInDist, h.pqKeys, h.visitedKeys, h.visitedDist, h.frontier,
        h.visitedLePq, h.visitedLeDcur, h.visitedOpt, h.prevChain,
        h.oldRelaxed, ?_⟩
      intro e' he'
      rcases List.mem_append.mp he' with hh | hh
      · exact h.curRelaxed e' hh
      · have : e' = e := by
          rcases List.mem_cons.mp hh with h' | h'
          · exact h'
          · cases h'
        subst this
        exact ⟨d, hf, by omega⟩

theorem MidInv.fold {g : List (String × List Edge)} {s cur : String} {dcur : Int}
    {es : List Edge} {visited : List String} (hg : goodGraph g) :
    ∀ (rem done : List Edge)
      (st : List (String × Int) × List (String × Option String) × List (Int × String)),
      (∀ e ∈ rem, e ∈ es) →
      MidInv g s cur dcur es st.1 st.2.1 st.2.2 visited done →
      MidInv g s cur dcur es (rem.foldl (relax cur dcur) st).1
        (rem.foldl (relax cur dcur) st).2.1
        (rem.foldl (relax cur dcur) st).2.2 visited (done ++ rem) := by
  intro rem
  induction rem with
  | nil =>
    intro done st _ h
    simpa using h
  | cons e rem' ih =>
    intro done st hmem h
    rw [List.foldl_cons]
    have hstep := MidInv.step hg h (hmem e (List.mem_cons_self _ _))
    have hres := ih (done ++ [e]) (relax cur dcur st e)
      (fun x hx => hmem x (List.mem_cons_of_mem _ hx)) hstep
    simpa [List.append_assoc] using hres

theorem MidInv.toInv {g : List (String × List Edge)} {s cur : String} {dcur : Int}
    {es : List Edge}
    {dist : List (String × Int)} {prev : List (String × Option String)}
    {pq : List (Int × String)} {visited : List String}
    (h : MidInv g s cur dcur es dist prev pq visited es) :
    Inv g s dist prev pq (cur :: visited) := by
  refine ⟨h.distS, h.prevS, h.distNonneg, h.pqInDist, h.pqKeys, h.visitedKeys,
    h.visitedDist, h.frontier, h.visitedLePq, ?_, h.visitedOpt, h.prevChain⟩
  intro u hu du hdu es' hes' e' he'
  rcases List.mem_cons.mp hu with hcur | hvis
  · subst hcur
    have hes : es' = es := by
      rw [h.curEdges] at hes'
      injection hes' with h'
      exact h'.symm
    have hdu' : du = dcur := by
      rw [h.dcurEq] at hdu
      injection hdu with h'
      exact h'.symm
    subst hes
    subst hdu'
    exact h.curRelaxed e' he'
  · exact h.oldRelaxed u hvis du hdu es' hes' e' he'

/-! ### Loop equations and the initial invariant -/

theorem dijkstraLoop_none {g : List (String × List Edge)} {goal : String}
    {fuel : Nat} {dist : List (String × Int)} {prev : List (String × Option String)}
    {pq : List (Int × String)} {visited : List String}
    (hmin : pqMin pq = none) :
    dijkstraLoop g goal fuel dist prev pq visited = .ok (dist, prev) := by
  cases fuel <;> (unfold dijkstraLoop; rw [hmin])

theorem dijkstraLoop_zero_some {g : List (String × List Edge)} {goal : String}
    {dist : List (String × Int)} {prev : List (String × Option String)}
    {pq : List (Int × String)} {visited : List String} {m : Int × String}
    (hmin : pqMin pq = some m) :
    dijkstraLoop g goal 0 dist prev pq visited = .error () := by
  unfold dijkstraLoop
  rw [hmin]

theorem dijkstraLoop_succ_stale {g : List (String × List Edge)} {goal : String}
    {fuel : Nat} {dist : List (String × Int)} {prev : List (String × Option String)}
    {pq : List (Int × String)} {visited : List String} {m : Int × String}
    (hmin : pqMin pq = some m) (hv : m.2 ∈ visited) :
    dijkstraLoop g goal (fuel + 1) dist prev pq visited =
      dijkstraLoop g goal fuel dist prev (pq.erase m) visited := by
  conv_lhs => unfold dijkstraLoop
  rw [hmin]
  simp only [if_pos hv]

theorem dijkstraLoop_succ_goal {g : List (String × List Edge)} {goal : String}
    {fuel : Nat} {dist : List (String × Int)} {prev : List (String × Option String)}
    {pq : List (Int × String)} {visited : List String} {m : Int × String}
    (hmin : pqMin pq = some m) (hv : m.2 ∉ visited) (hgoal : m.2 = goal) :
    dijkstraLoop g goal (fuel + 1) dist prev pq visited = .ok (dist, prev) := by
  conv_lhs => unfold dijkstraLoop
  rw [hmin]
  simp only [if_neg hv, if_pos hgoal]

theorem dijkstraLoop_succ_keyerr {g : List (String × List Edge)} {goal : String}
    {fuel : Nat} {dist : List (String × Int)} {prev : List (String × Option String)}
    {pq : List (Int × String)} {visited : List String} {m : Int × String}
    (hmin : pqMin pq = some m) (hv : m.2 ∉ visited) (hgoal : ¬ m.2 = goal)
    (hes : dictFind g m.2 = none) :
    dijkstraLoop g goal (fuel + 1) dist prev pq visited = .error () := by
  conv_lhs => unfold dijkstraLoop
  rw [hmin]
  simp only [if_neg hv, if_neg hgoal]
  rw [hes]

theorem dijkstraLoop_succ_settle {g : List (String × List Edge)} {goal : String}
    {fuel : Nat} {dist : List (String × Int)} {prev : List (String × Option String)}
    {pq : List (Int × String)} {visited : List String} {m : Int × String}
    {es : List Edge}
    (hmin : pqMin pq = some m) (hv : m.2 ∉ visited) (hgoal : ¬ m.2 = goal)
    (hes : dictFind g m.2 = some es) :
    dijkstraLoop g goal (fuel + 1) dist prev pq visited =
      dijkstraLoop g goal fuel
        (es.foldl (relax m.2 m.1) (dist, prev, pq.erase m)).1
        (es.foldl (relax m.2 m.1) (dist, prev, pq.erase m)).2.1
        (es.foldl (relax m.2 m.1) (dist, prev, pq.erase m)).2.2
        (m.2 :: visited) := by
  conv_lhs => unfold dijkstraLoop
  rw [hmin]
  simp only [if_neg hv, if_neg hgoal]
  rw [hes]

theorem Inv.init (g : List (String × List Edge)) (s : String) (hs : s ∈ dkeys g) :
    Inv g s [(s, 0)] [(s, none)] [(0, s)] [] := by
  have hfind : dictFind [(s, (0 : Int))] s = some 0 := by
    unfold dictFind
    rw [List.find?_cons_of_pos _ (by simp)]
    rfl
  have hfindp : dictFind [(s, (none : Option String))] s = some none := by
    unfold dictFind
    rw [List.find?_cons_of_pos _ (by simp)]
    rfl
  have hchar : ∀ (v : String) (d : Int), dictFind [(s, (0 : Int))] v = some d →
      v = s ∧ d = 0 := by
    intro v d hv
    have hm := dictFind_mem hv
    have : (v, d) = (s, (0 : Int)) := by
      rcases List.mem_cons.mp hm with h | h
      · exact h
      · cases h
    exact ⟨congrArg Prod.fst this, congrArg Prod.snd this⟩
  refine ⟨hfind, hfindp, ?_, ?_, ?_, ?_, ?_, ?_, ?_, ?_, ?_, ?_⟩
  · intro v d hv
    rw [(hchar v d hv).2]
  · intro d v hdv
    have : (d, v) = ((0 : Int), s) := by
      rcases List.mem_cons.mp hdv with h | h
      · exact h
      · cases h
    have hd : d = 0 := congrArg Prod.fst this
    have hv : v = s := congrArg Prod.snd this
    subst hd
    subst hv
    exact ⟨0, hfind, le_refl 0⟩
  · intro d v hdv
    have : (d, v) = ((0 : Int), s) := by
      rcases List.mem_cons.mp hdv with h | h
      · exact h
      · cases h
    have hv : v = s := congrArg Prod.snd this
    subst hv
    exact hs
  · intro v hv
    cases hv
  · intro v hv
    cases hv
  · intro v dv hdv _
    obtain ⟨hv, hd⟩ := hchar v dv hdv
    subst hv
    subst hd
    exact List.mem_cons_self _ _
  · intro u hu
    cases hu
  · intro u hu
    cases hu
  · intro u hu
    cases hu
  · intro v dv hdv hvs
    exact absurd (hchar v dv hdv).1 hvs

/-! ### Loop postcondition -/

theorem dijkstraLoop_ok (g : List (String × List Edge)) (s goal : String)
    (hg : goodGraph g) :
    ∀ (fuel : Nat) (dist : List (String × Int)) (prev : List (String × Option String))
      (pq : List (Int × String)) (visited : List String),
      Inv g s dist prev pq visited →
      ∀ dist' prev',
        dijkstraLoop g goal fuel dist prev pq visited = .ok (dist', prev') →
        ∃ visited2 : List String,
          (∀ u ∈ visited2, ∀ du, dictFind dist' u = some du →
            ∀ p c, WalkFromTo g s u p c → du ≤ c) ∧
          dictFind dist' s = some 0 ∧
          (∀ v d, dictFind dist' v = some d → 0 ≤ d) ∧
          (∀ v dv, dictFind dist' v = some dv → v ≠ s →
            ∃ u e du, dictFind prev' v = some (some u) ∧ edge_info g u v = some e ∧
              dictFind dist' u = some du ∧ dv = du + e.minutes ∧ du < dv) ∧
          dictFind prev' s = some none ∧
          (goal ∈ visited2 ∨ ∀ v dv, dictFind dist' v = some dv → v ∈ visited2) := by
  intro fuel
  induction fuel with
  | zero =>
    intro dist prev pq visited hInv dist' prev' hrun
    cases hmin : pqMin pq with
    | none =>
      rw [dijkstraLoop_none hmin] at hrun
      injection hrun with h
      have hd : dist' = dist := (congrArg Prod.fst h).symm
      have hp : prev' = prev := (congrArg Prod.snd h).symm
      subst hd
      subst hp
      refine ⟨visited, hInv.visitedOpt, hInv.distS, hInv.distNonneg, ?_, hInv.prevS, ?_⟩
      · intro v dv hdv hvs
        obtain ⟨u, e, du, p1, _, p3, p4, p5, p6⟩ := hInv.prevChain v dv hdv hvs
        exact ⟨u, e, du, p1, p3, p4, p5, p6⟩
      · right
        intro v dv hdv
        by_contra hv
        have := hInv.frontier v dv hdv hv
        rw [(pqMin_none_iff pq).mp hmin] at this
        cases this
    | some m =>
      rw [dijkstraLoop_zero_some hmin] at hrun
      cases hrun
  | succ fuel ih =>
    intro dist prev pq visited hInv dist' prev' hrun
    cases hmin : pqMin pq with
    | none =>
      rw [dijkstraLoop_none hmin] at hrun
      injection hrun with h
      have hd : dist' = dist := (congrArg Prod.fst h).symm
      have hp : prev' = prev := (congrArg Prod.snd h).symm
      subst hd
      subst hp
      refine ⟨visited, hInv.visitedOpt, hInv.distS, hInv.distNonneg, ?_, hInv.prevS, ?_⟩
      · intro v dv hdv hvs
        obtain ⟨u, e, du, p1, _, p3, p4, p5, p6⟩ := hInv.prevChain v dv hdv hvs
        exact ⟨u, e, du, p1, p3, p4, p5, p6⟩
      · right
        intro v dv hdv
        by_contra hv
        have := hInv.frontier v dv hdv hv
        rw [(pqMin_none_iff pq).mp hmin] at this
        cases this
    | some m =>
      by_cases hv : m.2 ∈ visited
      · rw [dijkstraLoop_succ_stale hmin hv] at hrun
        exact ih dist prev (pq.erase m) visited (hInv.eraseStale hv) dist' prev' hrun
      · by_cases hgoal : m.2 = goal
        · rw [dijkstraLoop_succ_goal hmin hv hgoal] at hrun
          injection hrun with h
          have hd : dist' = dist := (congrArg Prod.fst h).symm
          have hp : prev' = prev := (congrArg Prod.snd h).symm
          subst hd
          subst hp
          obtain ⟨hdm, hopt⟩ := settled_min_opt g s hg hInv hmin hv
          refine ⟨m.2 :: visited, ?_, hInv.distS, hInv.distNonneg, ?_, hInv.prevS, ?_⟩
          · intro u hu du hdu p c hw
            rcases List.mem_cons.mp hu with h' | h'
            · subst h'
              have : du = m.1 := by
                rw [hdu] at hdm
                injection hdm
              rw [this]
              exact hopt p c hw
            · exact hInv.visitedOpt u h' du hdu p c hw
          · intro v dv hdv hvs
            obtain ⟨u, e, du, p1, _, p3, p4, p5, p6⟩ := hInv.prevChain v dv hdv hvs
            exact ⟨u, e, du, p1, p3, p4, p5, p6⟩
          · left
            rw [← hgoal]
            exact List.mem_cons_self _ _
        · cases hes : dictFind g m.2 with
          | none =>
            rw [dijkstraLoop_succ_keyerr hmin hv hgoal hes] at hrun
            cases hrun
          | some es =>
            rw [dijkstraLoop_succ_settle hmin hv hgoal hes] at hrun
            have hmid := MidInv.ofSettle hg hInv hmin hv hes
            have hfold := MidInv.fold hg es [] (dist, prev, pq.erase m)
              (fun e he => he) hmid
            rw [List.nil_append] at hfold
            have hInv' := MidInv.toInv hfold
            exact ih _ _ _ _ hInv' dist' prev' hrun

/-! ### The loop cannot fail on a well-formed network -/

theorem filter_sum_le {α : Type} (f : α → Nat) (P Q : α → Bool)
    (himp : ∀ x, Q x = true → P x = true) :
    ∀ l : List α, ((l.filter Q).map f).sum ≤ ((l.filter P).map f).sum := by
  intro l
  induction l with
  | nil => exact le_refl 0
  | cons x xs ih =>
    rw [List.filter_cons, List.filter_cons]
    by_cases hq : Q x = true
    · rw [if_pos hq, if_pos (himp x hq)]
      simp only [List.map_cons, List.sum_cons]
      omega
    · rw [if_neg hq]
      by_cases hp : P x = true
      · rw [if_pos hp]
        simp only [List.map_cons, List.sum_cons]
        omega
      · rw [if_neg hp]
        exact ih

theorem settle_sum_drop (cur : String) (es : List Edge) (visited : List String)
    (hcur : cur ∉ visited) :
    ∀ g : List (String × List Edge), dictFind g cur = some es →
    ((g.filter (fun p => decide (p.1 ∉ cur :: visited))).map
        (fun p => 1 + p.2.length)).sum + 1 + es.length ≤
      ((g.filter (fun p => decide (p.1 ∉ visited))).map
        (fun p => 1 + p.2.length)).sum := by
  intro g
  induction g with
  | nil =>
    intro hes
    cases hes
  | cons p rest ih =>
    intro hes
    have hmono := filter_sum_le (fun p : String × List Edge => 1 + p.2.length)
      (fun p => decide (p.1 ∉ visited)) (fun p => decide (p.1 ∉ cur :: visited))
      (by
        intro x hx
        simp only [decide_eq_true_eq] at hx ⊢
        intro hcon
        exact hx (List.mem_cons_of_mem _ hcon)) rest
    by_cases hac : p.1 = cur
    · have hesl : p.2 = es := by
        unfold dictFind at hes
        rw [List.find?_cons_of_pos _ (by simp [hac])] at hes
        injection hes
      rw [List.filter_cons, List.filter_cons]
      have h1 : ¬ (decide (p.1 ∉ cur :: visited) = true) := by
        simp only [decide_eq_true_eq]
        intro hcon
        exact hcon (by rw [hac]; exact List.mem_cons_self _ _)
      have h2 : decide (p.1 ∉ visited) = true := by
        simp only [decide_eq_true_eq]
        rw [hac]
        exact hcur
      rw [if_neg h1, if_pos h2]
      simp only [List.map_cons, List.sum_cons]
      rw [← hesl]
      omega
    · have hes' : dictFind rest cur = some es := by
        unfold dictFind at hes ⊢
        rw [List.find?_cons_of_neg _ (by simp [hac])] at hes
        exact hes
      have hrec := ih hes'
      rw [List.filter_cons, List.filter_cons]
      by_cases hav : p.1 ∈ visited
      · have h1 : ¬ (decide (p.1 ∉ cur :: visited) = true) := by
          simp only [decide_eq_true_eq]
          intro hcon
          exact hcon (List.mem_cons_of_mem _ hav)
        have h2 : ¬ (decide (p.1 ∉ visited) = true) := by
          simp only [decide_eq_true_eq]
          intro hcon
          exact hcon hav
        rw [if_neg h1, if_neg h2]
        exact hrec
      · have h1 : decide (p.1 ∉ cur :: visited) = true := by
          simp only [decide_eq_true_eq]
          intro hcon
          rcases List.mem_cons.mp hcon with h | h
          · exact hac h
          · exact hav h
        have h2 : decide (p.1 ∉ visited) = true := by
          simp only [decide_eq_true_eq]
          exact hav
        rw [if_pos h1, if_pos h2]
        simp only [List.map_cons, List.sum_cons]
        omega

theorem relax_pq_length (cur : String) (dcur : Int)
    (st : List (String × Int) × List (String × Option String) × List (Int × String))
    (e : Edge) :
    (relax cur dcur st e).2.2.length ≤ st.2.2.length + 1 := by
  cases hf : dictFind st.1 e.to_id with
  | none =>
    rw [relax_eq_insert hf]
    simp
  | some d =>
    by_cases hlt : dcur + e.minutes < d
    · rw [relax_eq_update hf hlt]
      simp
    · rw [relax_eq_skip hf hlt]
      omega

theorem foldl_relax_pq_length (cur : String) (dcur : Int) :
    ∀ (es : List Edge)
      (st : List (String × Int) × List (String × Option String) × List (Int × String)),
      ((es.foldl (relax cur dcur) st).2.2).length ≤ st.2.2.length + es.length := by
  intro es
  induction es with
  | nil =>
    intro st
    simp
  | cons e es' ih =>
    intro st
    rw [List.foldl_cons]
    have h1 := relax_pq_length cur dcur st e
    have h2 := ih (relax cur dcur st e)
    simp only [List.length_cons]
    omega

theorem relax_pq_keys {g : List (String × List Edge)} (cur : String) (dcur : Int)
    (st : List (String × Int) × List (String × Option String) × List (Int × String))
    (e : Edge) (hto : e.to_id ∈ dkeys g)
    (hbase : ∀ d v, (d, v) ∈ st.2.2 → v ∈ dkeys g) :
    ∀ d v, (d, v) ∈ (relax cur dcur st e).2.2 → v ∈ dkeys g := by
  intro d v hdv
  cases hf : dictFind st.1 e.to_id with
  | none =>
    rw [relax_eq_insert hf] at hdv
    rcases List.mem_cons.mp hdv with h | h
    · have hv2 : v = e.to_id := congrArg Prod.snd h
      rw [hv2]
      exact hto
    · exact hbase d v h
  | some d0 =>
    by_cases hlt : dcur + e.minutes < d0
    · rw [relax_eq_update hf hlt] at hdv
      rcases List.mem_cons.mp hdv with h | h
      · have hv2 : v = e.to_id := congrArg Prod.snd h
        rw [hv2]
        exact hto
      · exact hbase d v h
    · rw [relax_eq_skip hf hlt] at hdv
      exact hbase d v hdv

theorem foldl_relax_pq_keys {g : List (String × List Edge)} (cur : String) (dcur : Int) :
    ∀ (es : List Edge)
      (st : List (String × Int) × List (String × Option String) × List (Int × String)),
      (∀ e ∈ es, e.to_id ∈ dkeys g) →
      (∀ d v, (d, v) ∈ st.2.2 → v ∈ dkeys g) →
      ∀ d v, (d, v) ∈ ((es.foldl (relax cur dcur) st).2.2) → v ∈ dkeys g := by
  intro es
  induction es with
  | nil =>
    intro st _ hbase d v hdv
    exact hbase d v hdv
  | cons e es' ih =>
    intro st hes hbase d v hdv
    rw [List.foldl_cons] at hdv
    exact ih (relax cur dcur st e)
      (fun x hx => hes x (List.mem_cons_of_mem _ hx))
      (relax_pq_keys cur dcur st e (hes e (List.mem_cons_self _ _)) hbase)
      d v hdv

theorem dijkstraLoop_no_error (g : List (String × List Edge)) (goal : String)
    (hg : goodGraph g) :
    ∀ (fuel : Nat) (dist : List (String × Int)) (prev : List (String × Option String))
      (pq : List (Int × String)) (visited : List String),
      (∀ d v, (d, v) ∈ pq → v ∈ dkeys g) →
      loopMeasure g pq visited ≤ fuel →
      dijkstraLoop g goal fuel dist prev pq visited ≠ .error () := by
  intro fuel
  induction fuel with
  | zero =>
    intro dist prev pq visited hkeys hmeas
    have hpq : pq = [] := by
      unfold loopMeasure at hmeas
      have : pq.length = 0 := by omega
      exact List.length_eq_zero.mp this
    subst hpq
    rw [dijkstraLoop_none (by rfl)]
    exact fun h => Except.noConfusion h
  | succ fuel ih =>
    intro dist prev pq visited hkeys hmeas
    cases hmin : pqMin pq with
    | none =>
      rw [dijkstraLoop_none hmin]
      exact fun h => Except.noConfusion h
    | some m =>
      have hmem : (m.1, m.2) ∈ pq := by
        rw [Prod.mk.eta]
        exact pqMin_mem hmin
      have hlen : (pq.erase m).length = pq.length - 1 :=
        List.length_erase_of_mem (pqMin_mem hmin)
      have hpos : 0 < pq.length :=
        List.length_pos.mpr (List.ne_nil_of_mem (pqMin_mem hmin))
      by_cases hv : m.2 ∈ visited
      · rw [dijkstraLoop_succ_stale hmin hv]
        apply ih
        · intro d v hdv
          exact hkeys d v ((List.erase_sublist m pq).mem hdv)
        · unfold loopMeasure at hmeas ⊢
          omega
      · by_cases hgoal : m.2 = goal
        · rw [dijkstraLoop_succ_goal hmin hv hgoal]
          exact fun h => Except.noConfusion h
        · cases hes : dictFind g m.2 with
          | none =>
            obtain ⟨es, hes'⟩ := dictFind_isSome_of_mem_keys (hkeys m.1 m.2 hmem)
            rw [hes'] at hes
            cases hes
          | some es =>
            rw [dijkstraLoop_succ_settle hmin hv hgoal hes]
            apply ih
            · apply foldl_relax_pq_keys
              · intro e he
                exact (goodGraph_edge hg hes he).1
              · intro d v hdv
                exact hkeys d v ((List.erase_sublist m pq).mem hdv)
            · unfold loopMeasure at hmeas ⊢
              have hsum := settle_sum_drop m.2 es visited hv g hes
              have hplen := foldl_relax_pq_length m.2 m.1 es (dist, prev, pq.erase m)
              have hplen' : ((es.foldl (relax m.2 m.1) (dist, prev, pq.erase m)).2.2).length ≤
                  (pq.erase m).length + es.length := by
                simpa using hplen
              omega

/-! ### Path reconstruction -/

theorem reconstructPath_spec (g : List (String × List Edge)) (s : String)
    {dist : List (String × Int)} {prev : List (String × Option String)}
    (hS : dictFind dist s = some 0)
    (hPS : dictFind prev s = some none)
    (hNN : ∀ v d, dictFind dist v = some d → 0 ≤ d)
    (hchain : ∀ v dv, dictFind dist v = some dv → v ≠ s →
      ∃ u e du, dictFind prev v = some (some u) ∧ edge_info g u v = some e ∧
        dictFind dist u = some du ∧ dv = du + e.minutes ∧ du < dv) :
    ∀ (fuel : Nat) (v : String) (dv : Int) (acc : List String),
      dictFind dist v = some dv → dv.toNat < fuel →
      ∃ p, reconstructPath prev fuel v acc = .ok (p ++ acc) ∧
        p.head? = some s ∧ p.getLast? = some v ∧ pathCost g p = some dv := by
  intro fuel
  induction fuel with
  | zero =>
    intro v dv acc _ hlt
    omega
  | succ fuel ih =>
    intro v dv acc hdv hlt
    by_cases hvs : v = s
    · subst hvs
      have hdv0 : dv = 0 := by
        rw [hS] at hdv
        injection hdv with h
        exact h.symm
      subst hdv0
      refine ⟨[v], ?_, rfl, rfl, pathCost_single g v⟩
      unfold reconstructPath
      rw [hPS]
      rfl
    · obtain ⟨u, e, du, hp, hei, hdu, hsum, hdlt⟩ := hchain v dv hdv hvs
      have h0 : 0 ≤ du := hNN u du hdu
      have hfu : du.toNat < fuel := by omega
      obtain ⟨p', hrec, hh, hl, hc⟩ := ih u du (v :: acc) hdu hfu
      refine ⟨p' ++ [v], ?_, ?_, List.getLast?_concat p', ?_⟩
      · unfold reconstructPath
        rw [hp]
        show reconstructPath prev fuel u (v :: acc) = .ok ((p' ++ [v]) ++ acc)
        rw [hrec]
        simp [List.append_assoc]
      · cases p' with
        | nil => cases hh
        | cons a q =>
          rw [List.cons_append, List.head?_cons]
          rw [List.head?_cons] at hh
          exact hh
      · have := pathCost_concat g p' u v e du hl hei hc
        rw [this, hsum]

/-! ### Routing claims -/

/-- Claim C2: on a well-formed network, whenever the shortest-path finder
returns a path and a total, the total is the sum of the minutes of the
consecutive segments of that path, and no other walk between the same two
stations has a strictly smaller total. -/
theorem dijkstra_path_correct (g : List (String × List Edge)) (s t : String)
    (hg : goodGraph g) (p : List String) (total : Int)
    (hrun : dijkstra_path g s t = .ok (some (p, total))) :
    p.head? = some s ∧ p.getLast? = some t ∧ pathCost g p = some total ∧
    ∀ q c, WalkFromTo g s t q c → total ≤ c := by
  unfold dijkstra_path at hrun
  by_cases hmem : s ∉ dkeys g ∨ t ∉ dkeys g
  · rw [if_pos hmem] at hrun
    injection hrun with h
    cases h
  · rw [if_neg hmem] at hrun
    have hs : s ∈ dkeys g := by
      by_contra h
      exact hmem (Or.inl h)
    cases hloop : dijkstraLoop g t (dijkstraFuel g) [(s, 0)] [(s, none)] [(0, s)] [] with
    | error err =>
      rw [hloop] at hrun
      cases hrun
    | ok dp =>
      obtain ⟨dist, prev⟩ := dp
      rw [hloop] at hrun
      dsimp only at hrun
      cases hfd : dictFind dist t with
      | none =>
        rw [hfd] at hrun
        injection hrun with h
        cases h
      | some total0 =>
        rw [hfd] at hrun
        dsimp only at hrun
        cases hrp : reconstructPath prev (total0.toNat + 1) t [] with
        | error e =>
          rw [hrp] at hrun
          cases hrun
        | ok path0 =>
          rw [hrp] at hrun
          injection hrun with h
          injection h with h2
          have hpath : path0 = p := congrArg Prod.fst h2
          have htot : total0 = total := congrArg Prod.snd h2
          subst hpath
          subst htot
          obtain ⟨visited2, hOpt, hS', hNN', hchain', hPS', hexit⟩ :=
            dijkstraLoop_ok g s t hg (dijkstraFuel g) [(s, 0)] [(s, none)]
              [(0, s)] [] (Inv.init g s hs) dist prev hloop
          have htvis : t ∈ visited2 := by
            rcases hexit with h | h
            · exact h
            · exact h t total0 hfd
          obtain ⟨p', hrec, hh, hl, hc⟩ := reconstructPath_spec g s hS' hPS' hNN'
            hchain' (total0.toNat + 1) t total0 [] hfd (by omega)
          rw [hrp] at hrec
          injection hrec with h3
          rw [List.append_nil] at h3
          subst h3
          exact ⟨hh, hl, hc, fun q c hw => hOpt t htvis total0 hfd q c hw⟩

/-- Claim C2 witness: on the triangle A—B (1 min), B—C (2 min), A—C (5 min)
the finder returns A→B→C, whose segment minutes sum to its total 3. -/
theorem dijkstra_path_correct_witness :
    pathCost
      [("A", [⟨"B", 1, "L1", "train"⟩, ⟨"C", 5, "L1", "train"⟩]),
       ("B", [⟨"A", 1, "L1", "train"⟩, ⟨"C", 2, "L1", "train"⟩]),
       ("C", [⟨"A", 5, "L1", "train"⟩, ⟨"B", 2, "L1", "train"⟩])]
      ["A", "B", "C"] = some 3 :=
  (dijkstra_path_correct
    [("A", [⟨"B", 1, "L1", "train"⟩, ⟨"C", 5, "L1", "train"⟩]),
     ("B", [⟨"A", 1, "L1", "train"⟩, ⟨"C", 2, "L1", "train"⟩]),
     ("C", [⟨"A", 5, "L1", "train"⟩, ⟨"B", 2, "L1", "train"⟩])]
    "A" "C" (by decide) ["A", "B", "C"] 3 (by rfl)).2.2.1

/-- Claim C8: an unknown start or goal identifier yields the explicit
no-path result, and so does an unreachable goal on a well-formed network —
neither is an error. -/
theorem dijkstra_path_no_route (g : List (String × List Edge)) (s t : String)
    (hg : goodGraph g) :
    (s ∉ dkeys g ∨ t ∉ dkeys g → dijkstra_path g s t = .ok none) ∧
    ((¬ ∃ p c, WalkFromTo g s t p c) → dijkstra_path g s t = .ok none) := by
  constructor
  · intro h
    unfold dijkstra_path
    rw [if_pos h]
  · intro hnw
    unfold dijkstra_path
    by_cases hmem : s ∉ dkeys g ∨ t ∉ dkeys g
    · rw [if_pos hmem]
    · rw [if_neg hmem]
      have hs : s ∈ dkeys g := by
        by_contra h
        exact hmem (Or.inl h)
      have hkeys0 : ∀ d v, (d, v) ∈ [((0 : Int), s)] → v ∈ dkeys g := by
        intro d v hdv
        have heq : (d, v) = ((0 : Int), s) := by
          rcases List.mem_cons.mp hdv with h | h
          · exact h
          · cases h
        have hv : v = s := congrArg Prod.snd heq
        rw [hv]
        exact hs
      have hmeas : loopMeasure g [(0, s)] [] ≤ dijkstraFuel g := by
        unfold loopMeasure dijkstraFuel
        have hfe : g.filter (fun p => decide (p.1 ∉ ([] : List String))) = g :=
          List.filter_eq_self.mpr (fun a _ => by simp)
        rw [hfe]
        simp only [List.length_cons, List.length_nil]
        omega
      cases hloop : dijkstraLoop g t (dijkstraFuel g) [(s, 0)] [(s, none)] [(0, s)] [] with
      | error err =>
        exfalso
        cases err
        exact dijkstraLoop_no_error g t hg (dijkstraFuel g) [(s, 0)] [(s, none)]
          [(0, s)] [] hkeys0 hmeas hloop
      | ok dp =>
        obtain ⟨dist, prev⟩ := dp
        dsimp only
        cases hfd : dictFind dist t with
        | none => rfl
        | some total0 =>
          exfalso
          obtain ⟨visited2, hOpt, hS', hNN', hchain', hPS', hexit⟩ :=
            dijkstraLoop_ok g s t hg (dijkstraFuel g) [(s, 0)] [(s, none)]
              [(0, s)] [] (Inv.init g s hs) dist prev hloop
          obtain ⟨p, hrec, hh, hl, hc⟩ := reconstructPath_spec g s hS' hPS' hNN'
            hchain' (total0.toNat + 1) t total0 [] hfd (by omega)
          exact hnw ⟨p, total0, hh, hl, hc⟩

/-- Claim C8 witness: in the edgeless two-station network, the query A→B
returns the no-path result. -/
theorem dijkstra_path_no_route_witness :
    dijkstra_path [("A", ([] : List Edge)), ("B", [])] "A" "B" = .ok none := by
  have h := dijkstra_path_no_route [("A", ([] : List Edge)), ("B", [])] "A" "B"
    (by decide)
  apply h.2
  rintro ⟨p, c, hh, hl, hc⟩
  cases p with
  | nil => cases hh
  | cons a q =>
    have ha : a = "A" := by
      rw [List.head?_cons] at hh
      injection hh
    cases q with
    | nil =>
      have hb : a = "B" := by
        rw [List.getLast?_singleton] at hl
        injection hl
      rw [ha] at hb
      exact absurd hb (by decide)
    | cons b q' =>
      subst ha
      rw [pathCost_cons₂] at hc
      have hnone : edge_info [("A", ([] : List Edge)), ("B", [])] "A" b = none := by
        unfold edge_info dictFind
        rw [List.find?_cons_of_pos _ (by simp)]
        rfl
      rw [hnone] at hc
      cases hc

/-- Claim C9: querying the finder with start = goal = a known station
returns the single-station path with zero total, with no special-casing by
the caller. -/
theorem dijkstra_path_self (g : List (String × List Edge)) (s : String)
    (hs : s ∈ dkeys g) :
    dijkstra_path g s s = .ok (some ([s], 0)) := by
  unfold dijkstra_path
  rw [if_neg (by
    intro h
    rcases h with h | h <;> exact h hs)]
  have hmin : pqMin [((0 : Int), s)] = some (0, s) := rfl
  have hstep : dijkstraLoop g s ((g.map (fun p => 1 + p.2.length)).sum + 1)
      [(s, 0)] [(s, none)] [(0, s)] [] = .ok ([(s, 0)], [(s, none)]) :=
    dijkstraLoop_succ_goal hmin (by simp) rfl
  rw [show dijkstraFuel g = (g.map (fun p => 1 + p.2.length)).sum + 1 from rfl]
  rw [hstep]
  dsimp only
  have hfd : dictFind [(s, (0 : Int))] s = some 0 := by
    unfold dictFind
    rw [List.find?_cons_of_pos _ (by simp)]
    rfl
  rw [hfd]
  dsimp only
  have hrp : reconstructPath [(s, (none : Option String))] ((0 : Int).toNat + 1) s [] =
      .ok [s] := by
    unfold reconstructPath
    have hfp : dictFind [(s, (none : Option String))] s = some none := by
      unfold dictFind
      rw [List.find?_cons_of_pos _ (by simp)]
      rfl
    rw [hfp]
    rfl
  rw [hrp]

/-- Claim C9 witness: the singleton network routed from X to X. -/
theorem dijkstra_path_self_witness :
    dijkstra_path [("X", ([] : List Edge))] "X" "X" = .ok (some (["X"], 0)) :=
  dijkstra_path_self [("X", ([] : List Edge))] "X" (by decide)

end Transit
